import Mathlib

/-!
Verification of the Sharp Frames scoring and selection engine.

The definitions below are a shallow embedding of
`sharp_frames/processing/frame_selector.py` and
`sharp_frames/processing/sharpness_analyzer.py`.
Python floats are modelled as rationals (`ℚ`), Python ints as `ℤ`
(or `ℕ` for frame indices, which the data model declares unsigned),
Python exceptions as `Except` / `Option`.
-/

/-- Modelled from the spec: the `FrameData` record of
`sharp_frames/models/frame_data.py` (the models module is not part of the
sources at hand).  The spec gives it fields
`path`, `index : uint` (0-based), `sharpness_score : float64`,
`source_video`, `source_index`, `output_name`. -/
structure FrameData where
  path : String
  index : ℕ
  sharpness_score : ℚ
  source_video : Option String := none
  source_index : Option ℕ := none
  output_name : Option String := none
  deriving DecidableEq, Repr

instance : Inhabited FrameData := ⟨⟨"", 0, 0, none, none, none⟩⟩

/-- Modelled from the spec: the `ExtractionResult` record of
`sharp_frames/models/frame_data.py` (not among the sources at hand):
frames, a key-value metadata map, an optional temp dir and an input type. -/
structure ExtractionResult where
  frames : List FrameData
  metadata : List (String × String)
  temp_dir : Option String
  input_type : String
  deriving DecidableEq, Repr

/-- The dictionary representation produced by `FrameSelector._frames_to_dict`.
The dict also carries an `id` field (`"frame_%05d" % index`, a formatted
label) that no selection algorithm ever reads; it is omitted here. -/
structure FrameDict where
  path : String
  index : ℕ
  sharpnessScore : ℚ
  deriving DecidableEq, Repr

/-- `FrameSelector._frames_to_dict`. -/
def frames_to_dict (frames : List FrameData) : List FrameDict :=
  frames.map (fun f => ⟨f.path, f.index, f.sharpness_score⟩)

/-- `FrameSelector.BEST_N_SHARPNESS_WEIGHT = 0.7`. -/
def BEST_N_SHARPNESS_WEIGHT : ℚ := 7 / 10

/-- `FrameSelector.BEST_N_DISTRIBUTION_WEIGHT = 0.3` (declared in the source
but never combined into the weighted score; kept for reference). -/
def BEST_N_DISTRIBUTION_WEIGHT : ℚ := 3 / 10

/-- `FrameSelector.OUTLIER_MIN_NEIGHBORS = 3`. -/
def OUTLIER_MIN_NEIGHBORS : ℕ := 3

/-- `FrameSelector.OUTLIER_THRESHOLD_DIVISOR = 4`. -/
def OUTLIER_THRESHOLD_DIVISOR : ℚ := 4

/-- The weighted score `_calculate_weighted_scores` assigns to one frame dict:
`sharpnessScore * BEST_N_SHARPNESS_WEIGHT`. -/
def weighted_score (f : FrameDict) : ℚ := f.sharpnessScore * BEST_N_SHARPNESS_WEIGHT

/-- `FrameSelector._calculate_weighted_scores`. -/
def calculate_weighted_scores (frames_dict : List FrameDict) : List ℚ :=
  frames_dict.map weighted_score

/-- One insertion step of the stable descending sort on weighted score.
A frame earlier in the original order is placed before a later one exactly
when its key is `≥`, which reproduces Python's stable
`sorted(..., key=score, reverse=True)`. -/
def insert_by_score (x : FrameDict) : List FrameDict → List FrameDict
  | [] => [x]
  | y :: ys =>
      if weighted_score y ≤ weighted_score x then x :: y :: ys
      else y :: insert_by_score x ys

/-- Stable sort of frame dicts by weighted score, highest first: Python's
`sorted(zip(frames_dict, weighted_scores), key=lambda x: x[1], reverse=True)`
(the score of a pair is a function of the dict, so sorting the pairs by
score is sorting the dicts by `weighted_score`). -/
def sort_by_score : List FrameDict → List FrameDict
  | [] => []
  | x :: xs => insert_by_score x (sort_by_score xs)

/-- One insertion step of the stable ascending sort on `index`
(`sorted(selected_frame_data, key=lambda f: f.index)`). -/
def insert_by_index (x : FrameData) : List FrameData → List FrameData
  | [] => [x]
  | y :: ys => if x.index ≤ y.index then x :: y :: ys else y :: insert_by_index x ys

/-- Stable sort of frames by `index` ascending. -/
def sort_by_index : List FrameData → List FrameData
  | [] => []
  | x :: xs => insert_by_index x (sort_by_index xs)

/-- `FrameSelector._is_gap_sufficient`: every already-selected index is at
absolute distance `≥ min_gap` from the candidate (trivially true when
nothing is selected yet). -/
def is_gap_sufficient (frame_index : ℕ) (selected : List FrameDict) (min_gap : ℤ) : Bool :=
  selected.all (fun s => decide (min_gap ≤ |(frame_index : ℤ) - (s.index : ℤ)|))

/-- The shared greedy loop of `_select_initial_segments` and
`_fill_remaining_slots`: walk the queue in order, stop as soon as `n` frames
are selected, and append a candidate exactly when its gap to everything
selected so far is sufficient. -/
def select_loop (n : ℕ) (gap : ℤ) : List FrameDict → List FrameDict → List FrameDict
  | [], selected => selected
  | d :: ds, selected =>
      if n ≤ selected.length then selected
      else if is_gap_sufficient d.index selected gap then
        select_loop n gap ds (selected ++ [d])
      else select_loop n gap ds selected

/-- `FrameSelector._select_initial_segments`: greedy pass over the frames
sorted by weighted score descending, with the full `min_gap`. -/
def select_initial_segments (frames_dict : List FrameDict) (n : ℕ) (min_gap : ℤ) :
    List FrameDict :=
  select_loop n min_gap (sort_by_score frames_dict) []

/-- The relaxed gap of `_fill_remaining_slots`: `max(1, min_gap // 2)`
(Python floor division). -/
def relaxed_gap (min_gap : ℤ) : ℤ := max 1 (Int.fdiv min_gap 2)

/-- `FrameSelector._fill_remaining_slots`: second greedy pass over the still
unselected frames, sorted by weighted score descending, with the relaxed
gap, continuing from the already selected list. -/
def fill_remaining_slots (frames_dict : List FrameDict) (n : ℕ) (min_gap : ℤ)
    (selected : List FrameDict) : List FrameDict :=
  let unselected := frames_dict.filter
    (fun d => !(decide (d.index ∈ selected.map FrameDict.index)))
  select_loop n (relaxed_gap min_gap) (sort_by_score unselected) selected

/-- The final recovery step of `_select_best_n_frames`: for each selected
dict, `frames[frame_dict['index']]`.  An out-of-range index is Python's
`IndexError`, modelled as `none`. -/
def lookup_selected (frames : List FrameData) : List FrameDict → Option (List FrameData)
  | [] => some []
  | d :: ds =>
      match frames.get? d.index, lookup_selected frames ds with
      | some f, some fs => some (f :: fs)
      | _, _ => none

/-- `FrameSelector._select_best_n_frames`.  Returns `none` when the final
`frames[frame_dict['index']]` lookup raises `IndexError`. -/
def select_best_n_frames (frames : List FrameData) (n : ℤ) (min_buffer : ℤ) :
    Option (List FrameData) :=
  if n ≤ 0 then some [] else
  let nn := min n.toNat frames.length
  let frames_dict := frames_to_dict frames
  let sel1 := select_initial_segments frames_dict nn min_buffer
  let sel2 :=
    if sel1.length < nn then fill_remaining_slots frames_dict nn min_buffer sel1
    else sel1
  (lookup_selected frames sel2).map sort_by_index

/-- Python's `max(batch, key=lambda f: f.sharpness_score)` keeps the current
best on ties, so it returns the first frame attaining the maximum. -/
def pick_max (cur : FrameData) : List FrameData → FrameData
  | [] => cur
  | f :: fs =>
      if cur.sharpness_score < f.sharpness_score then pick_max f fs
      else pick_max cur fs

/-- `max` over a possibly empty batch (`none` on the empty list, which the
source guards with `if batch:`). -/
def max_by_sharpness : List FrameData → Option FrameData
  | [] => none
  | f :: fs => some (pick_max f fs)

/-- Python slice `frames[a:b]` for `0 ≤ a ≤ b` (clamped at the length). -/
def list_slice (frames : List FrameData) (a b : ℕ) : List FrameData :=
  (frames.drop a).take (b - a)

/-- The batch of index `i` in `_select_batched_frames`:
`frames[i*batch_size : (len(frames) if i == batch_count-1
else min((i+1)*batch_size, len(frames)))]`. -/
def batch_of (frames : List FrameData) (bc bs i : ℕ) : List FrameData :=
  list_slice frames (i * bs) (if i = bc - 1 then frames.length else min ((i + 1) * bs) frames.length)

/-- `FrameSelector._select_batched_frames`: clamp the batch count, cut the
frames into contiguous batches, and keep the sharpest frame of each
non-empty batch. -/
def select_batched_frames (frames : List FrameData) (batch_count : ℤ) : List FrameData :=
  if batch_count ≤ 0 then [] else
  let bc := min batch_count.toNat frames.length
  let bs := if 0 < bc then frames.length / bc else 1
  (List.range bc).foldl
    (fun acc i =>
      match max_by_sharpness (batch_of frames bc bs i) with
      | some b => acc ++ [b]
      | none => acc)
    []

/-- Python `int()` on a rational: truncation toward zero. -/
def ratTrunc (q : ℚ) : ℤ := if 0 ≤ q then ⌊q⌋ else ⌈q⌉

/-- The sensitivity derived in `_select_outlier_removal_frames`:
`max(0, min(100, int((2.0 - factor) * 50)))`. -/
def derived_sensitivity (factor : ℚ) : ℤ :=
  max 0 (min 100 (ratTrunc ((2 - factor) * 50)))

/-- Python `min` over a non-empty score list (`0` as an unused placeholder
for the empty list, which the source never reaches). -/
def list_min : List ℚ → ℚ
  | [] => 0
  | x :: xs => xs.foldl min x

/-- Python `max` over a non-empty score list. -/
def list_max : List ℚ → ℚ
  | [] => 0
  | x :: xs => xs.foldl max x

/-- The window size actually used by `_is_frame_outlier`: forced odd by
incrementing an even `window_size`. -/
def actual_window_size (window_size : ℕ) : ℕ :=
  if window_size % 2 ≠ 0 then window_size else window_size + 1

/-- The neighbor positions `_is_frame_outlier` inspects:
`range(window_start, index) + range(index+1, window_end)` with
`window_start = max(0, index - half_window)` (natural subtraction) and
`window_end = min(num_frames, index + half_window + 1)`,
where `half_window = actual_window_size // 2`. -/
def neighbor_indices (index : ℕ) (num_frames : ℕ) (window_size : ℕ) : List ℕ :=
  let half_window := actual_window_size window_size / 2
  let window_start := index - half_window
  let window_end := min num_frames (index + half_window + 1)
  List.range' window_start (index - window_start) ++
    List.range' (index + 1) (window_end - (index + 1))

/-- The neighbor sharpness scores (the positions are in range whenever
`index` is). -/
def neighbor_scores (index : ℕ) (frames : List FrameData) (window_size : ℕ) : List ℚ :=
  (neighbor_indices index frames.length window_size).map
    (fun idx => (frames.getD idx default).sharpness_score)

/-- `window_avg`: the mean neighbor sharpness. -/
def window_avg (index : ℕ) (frames : List FrameData) (window_size : ℕ) : ℚ :=
  (neighbor_scores index frames window_size).sum /
    ((neighbor_scores index frames window_size).length : ℚ)

/-- `current_score`: the inspected frame's own sharpness. -/
def current_score (index : ℕ) (frames : List FrameData) : ℚ :=
  (frames.getD index default).sharpness_score

/-- `percent_of_range`: `(window_avg - current_score) / global_range * 100`
when the global range is positive, else the source's fallback `0`. -/
def percent_of_range (index : ℕ) (frames : List FrameData) (global_range : ℚ)
    (window_size : ℕ) : ℚ :=
  if 0 < global_range then
    (window_avg index frames window_size - current_score index frames) /
      global_range * 100
  else 0

/-- `threshold = (100 - sensitivity) / OUTLIER_THRESHOLD_DIVISOR`. -/
def outlier_threshold (sensitivity : ℤ) : ℚ :=
  (100 - (sensitivity : ℚ)) / OUTLIER_THRESHOLD_DIVISOR

/-- `FrameSelector._is_frame_outlier`, with its local expressions factored
into the named definitions above. -/
def is_frame_outlier (index : ℕ) (frames : List FrameData) (global_range : ℚ)
    (sensitivity : ℤ) (window_size : ℕ) : Bool :=
  if sensitivity ≤ 0 then false
  else if 100 ≤ sensitivity then true
  else if (neighbor_indices index frames.length window_size).length <
      OUTLIER_MIN_NEIGHBORS then false
  else if global_range = 0 then false
  else
    decide (current_score index frames < window_avg index frames window_size) &&
      decide (outlier_threshold sensitivity <
        percent_of_range index frames global_range window_size)

/-- Python's `enumerate`, starting at a given counter. -/
def enum_frames : ℕ → List FrameData → List (ℕ × FrameData)
  | _, [] => []
  | i, f :: fs => (i, f) :: enum_frames (i + 1) fs

/-- `FrameSelector._select_outlier_removal_frames`. -/
def select_outlier_removal_frames (frames : List FrameData) (factor : ℚ)
    (window_size : ℕ) : List FrameData :=
  if frames = [] then [] else
  let sensitivity := derived_sensitivity factor
  let all_scores := frames.map (fun f => f.sharpness_score)
  if all_scores = [] then frames else
  let global_range := list_max all_scores - list_min all_scores
  ((enum_frames 0 frames).filter
      (fun p => !(is_frame_outlier p.1 frames global_range sensitivity window_size))).map
    Prod.snd

/-- `FrameSelector._preview_outlier_removal_count`: the coarse heuristic
bucketing `factor` into a removal rate.  The `window_size` parameter is
accepted and ignored, as in the source. -/
def preview_outlier_removal_count (frames : List FrameData) (factor : ℚ)
    (window_size : ℕ) : ℤ :=
  if frames = [] then 0 else
  let removal_rate : ℚ :=
    if 2 ≤ factor then mkRat 1 20
    else if mkRat 3 2 ≤ factor then mkRat 1 10
    else if 1 ≤ factor then mkRat 1 5
    else mkRat 3 10
  let estimated_selected := ratTrunc ((frames.length : ℚ) * (1 - removal_rate))
  max 1 estimated_selected

/-- The keyword parameters of `select_frames` / `preview_selection` with the
source's `params.get(...)` defaults. -/
structure SelectParams where
  n : ℤ := 300
  min_buffer : ℤ := 3
  batch_count : ℤ := 5
  factor : ℚ := mkRat 3 2
  window_size : ℕ := 15
  deriving DecidableEq, Repr

/-- The exceptions the selection entry points can raise: the `ValueError`
for an unsupported method name, and the `IndexError` of the best-n
recovery step. -/
inductive SelectError where
  | unsupportedMethod (method : String)
  | indexOutOfRange
  deriving DecidableEq, Repr

/-- `FrameSelector.select_frames`. -/
def select_frames (frames : List FrameData) (method : String) (p : SelectParams) :
    Except SelectError (List FrameData) :=
  if frames = [] then .ok [] else
  if method = "best_n" then
    match select_best_n_frames frames p.n p.min_buffer with
    | some l => .ok l
    | none => .error .indexOutOfRange
  else if method = "batched" then .ok (select_batched_frames frames p.batch_count)
  else if method = "outlier_removal" then
    .ok (select_outlier_removal_frames frames p.factor p.window_size)
  else .error (.unsupportedMethod method)

/-- `FrameSelector.preview_selection`. -/
def preview_selection (frames : List FrameData) (method : String) (p : SelectParams) :
    Except SelectError ℤ :=
  if frames = [] then .ok 0 else
  if method = "best_n" then .ok (min p.n (frames.length : ℤ))
  else if method = "batched" then .ok (min p.batch_count (frames.length : ℤ))
  else if method = "outlier_removal" then
    .ok (preview_outlier_removal_count frames p.factor p.window_size)
  else .error (.unsupportedMethod method)

/-- `SharpnessAnalyzer._update_frame_with_sharpness`: a fresh `FrameData`
with only the sharpness score replaced. -/
def update_frame_with_sharpness (frame : FrameData) (sharpness_score : ℚ) : FrameData :=
  ⟨frame.path, frame.index, sharpness_score,
    frame.source_video, frame.source_index, frame.output_name⟩

/-- `SharpnessAnalyzer._calculate_sharpness_parallel`.  The per-path scoring
(OpenCV Laplacian variance, including its per-frame failure fallback to
`0.0`) is modelled by the pure function `score`; the chunking loop is kept.
Python's `range(0, total, 0)` would raise, so a zero chunk size yields the
unreachable `[]`. -/
def calculate_sharpness_parallel (score : String → ℚ) (chunk_size : ℕ) :
    List String → List ℚ
  | [] => []
  | p :: ps =>
      if chunk_size = 0 then [] else
      ((p :: ps).take chunk_size).map score ++
        calculate_sharpness_parallel score chunk_size ((p :: ps).drop chunk_size)
  termination_by paths => paths.length
  decreasing_by
    simp only [List.length_drop, List.length_cons]
    omega

/-- `SharpnessAnalyzer.calculate_sharpness` (the default chunk size is 100;
the progress callback has no effect on the data). -/
def calculate_sharpness (score : String → ℚ) (er : ExtractionResult) : ExtractionResult :=
  if er.frames = [] then er else
  let frame_paths := er.frames.map (fun f => f.path)
  let sharpness_scores := calculate_sharpness_parallel score 100 frame_paths
  let updated_frames := List.zipWith update_frame_with_sharpness er.frames sharpness_scores
  ⟨updated_frames, er.metadata, er.temp_dir, er.input_type⟩

/-! ### Permutation and sortedness facts about the stable sorts -/

theorem insert_by_score_perm (x : FrameDict) (l : List FrameDict) :
    List.Perm (insert_by_score x l) (x :: l) := by
  induction l with
  | nil => simp [insert_by_score]
  | cons y ys ih =>
      simp only [insert_by_score]
      split
      · exact List.Perm.refl _
      · exact ((ih.cons y).trans (List.Perm.swap x y ys))

theorem sort_by_score_perm (l : List FrameDict) : List.Perm (sort_by_score l) l := by
  induction l with
  | nil => simp [sort_by_score]
  | cons x xs ih =>
      simpa [sort_by_score] using (insert_by_score_perm x (sort_by_score xs)).trans (ih.cons x)

theorem insert_by_index_perm (x : FrameData) (l : List FrameData) :
    List.Perm (insert_by_index x l) (x :: l) := by
  induction l with
  | nil => simp [insert_by_index]
  | cons y ys ih =>
      simp only [insert_by_index]
      split
      · exact List.Perm.refl _
      · exact ((ih.cons y).trans (List.Perm.swap x y ys))

theorem sort_by_index_perm (l : List FrameData) : List.Perm (sort_by_index l) l := by
  induction l with
  | nil => simp [sort_by_index]
  | cons x xs ih =>
      simpa [sort_by_index] using (insert_by_index_perm x (sort_by_index xs)).trans (ih.cons x)

theorem insert_by_index_sorted (x : FrameData) (l : List FrameData)
    (h : l.Pairwise (fun a b => a.index ≤ b.index)) :
    (insert_by_index x l).Pairwise (fun a b => a.index ≤ b.index) := by
  induction l with
  | nil => simp [insert_by_index]
  | cons y ys ih =>
      simp only [insert_by_index]
      rcases List.pairwise_cons.mp h with ⟨hy, hys⟩
      split
      · rename_i hxy
        refine List.pairwise_cons.mpr ⟨?_, h⟩
        intro b hb
        rcases List.mem_cons.mp hb with rfl | hb
        · exact hxy
        · exact le_trans hxy (hy _ hb)
      · rename_i hxy
        push_neg at hxy
        refine List.pairwise_cons.mpr ⟨?_, ih hys⟩
        intro b hb
        have hb2 := (insert_by_index_perm x ys).mem_iff.mp hb
        rcases List.mem_cons.mp hb2 with hb3 | hb3
        · subst hb3; exact le_of_lt hxy
        · exact hy _ hb3

theorem sort_by_index_sorted (l : List FrameData) :
    (sort_by_index l).Pairwise (fun a b => a.index ≤ b.index) := by
  induction l with
  | nil => simp [sort_by_index]
  | cons x xs ih => exact insert_by_index_sorted x (sort_by_index xs) ih

/-! ### A list with strictly increasing indices drawn from a strictly
increasing list is a sublist of it -/

/-- Over a list whose `index` values strictly increase, any list of members
whose own `index` values strictly increase is a sublist. -/
theorem sublist_of_sorted_mem :
    ∀ (L : List FrameData), L.Pairwise (fun a b => a.index < b.index) →
      ∀ (r : List FrameData), r.Pairwise (fun a b => a.index < b.index) →
        (∀ x ∈ r, x ∈ L) → r.Sublist L := by
  intro L
  induction L with
  | nil =>
      intro _ r _ hmem
      have : r = [] := List.eq_nil_iff_forall_not_mem.mpr (fun a ha => by
        simpa using hmem a ha)
      simp [this]
  | cons f fs ih =>
      intro hL r hr hmem
      rcases List.pairwise_cons.mp hL with ⟨hf, hfs⟩
      cases r with
      | nil => exact List.nil_sublist _
      | cons a r2 =>
          rcases List.pairwise_cons.mp hr with ⟨ha, hr2⟩
          by_cases haf : a = f
          · subst haf
            refine List.Sublist.cons₂ a (ih hfs r2 hr2 ?_)
            intro x hx
            have hxa := ha x hx
            rcases List.mem_cons.mp (hmem x (List.mem_cons_of_mem a hx)) with hxf | hxfs
            · exfalso; rw [hxf] at hxa; exact lt_irrefl _ hxa
            · exact hxfs
          · have hafs : a ∈ fs := by
              rcases List.mem_cons.mp (hmem a (List.mem_cons_self a r2)) with h1 | h1
              · exact absurd h1 haf
              · exact h1
            refine List.Sublist.cons f (ih hfs (a :: r2) hr ?_)
            intro x hx
            rcases List.mem_cons.mp hx with rfl | hx2
            · exact hafs
            · have hfa : f.index < a.index := hf a hafs
              have hax : a.index < x.index := ha x hx2
              rcases List.mem_cons.mp (hmem x (List.mem_cons_of_mem a hx2)) with h1 | h1
              · exfalso
                rw [h1] at hax
                exact lt_irrefl _ (lt_trans hfa hax)
              · exact h1

/-- A list sorted non-strictly by `index` whose `index` values are pairwise
distinct is sorted strictly. -/
theorem pairwise_lt_of_pairwise_le_nodup (l : List FrameData)
    (hle : l.Pairwise (fun a b => a.index ≤ b.index))
    (hnd : (l.map FrameData.index).Nodup) :
    l.Pairwise (fun a b => a.index < b.index) := by
  have hne : l.Pairwise (fun a b => a.index ≠ b.index) :=
    (List.pairwise_map.mp hnd)
  exact (hle.and hne).imp (fun h => lt_of_le_of_ne h.1 h.2)

/-! ### Structure of the greedy selection loop -/

/-- The loop only appends: its result is the initial selection followed by a
sublist of the queue. -/
theorem select_loop_structure (n : ℕ) (gap : ℤ) :
    ∀ (q sel : List FrameDict), ∃ ext,
      select_loop n gap q sel = sel ++ ext ∧ ext.Sublist q := by
  intro q
  induction q with
  | nil => intro sel; exact ⟨[], by simp [select_loop]⟩
  | cons d ds ih =>
      intro sel
      simp only [select_loop]
      by_cases h1 : n ≤ sel.length
      · exact ⟨[], by simp [h1]⟩
      · rw [if_neg h1]
        by_cases h2 : is_gap_sufficient d.index sel gap
        · rcases ih (sel ++ [d]) with ⟨ext, hext, hsub⟩
          refine ⟨d :: ext, ?_, List.Sublist.cons₂ d hsub⟩
          rw [if_pos h2, hext]
          simp
        · rcases ih sel with ⟨ext, hext, hsub⟩
          exact ⟨ext, by rw [if_neg h2, hext], List.Sublist.cons d hsub⟩

theorem select_loop_length_le (n : ℕ) (gap : ℤ) :
    ∀ (q sel : List FrameDict), sel.length ≤ n →
      (select_loop n gap q sel).length ≤ n := by
  intro q
  induction q with
  | nil => intro sel h; simpa [select_loop] using h
  | cons d ds ih =>
      intro sel h
      simp only [select_loop]
      by_cases h1 : n ≤ sel.length
      · simpa [h1] using h
      · rw [if_neg h1]
        by_cases h2 : is_gap_sufficient d.index sel gap
        · rw [if_pos h2]
          refine ih (sel ++ [d]) ?_
          simp only [List.length_append, List.length_cons, List.length_nil]
          omega
        · rw [if_neg h2]; exact ih sel h

/-- If all indices (already selected and queued together) are pairwise
distinct, the result's indices are distinct. -/
theorem select_loop_nodup (n : ℕ) (gap : ℤ) (q sel : List FrameDict)
    (h : ((sel ++ q).map FrameDict.index).Nodup) :
    ((select_loop n gap q sel).map FrameDict.index).Nodup := by
  rcases select_loop_structure n gap q sel with ⟨ext, heq, hsub⟩
  rw [heq]
  have hsub2 : (sel ++ ext).Sublist (sel ++ q) := hsub.append_left sel
  exact (hsub2.map FrameDict.index).nodup h

/-- With a gap of at most `1`, the loop accepts every queued frame whose
index is new, so with pairwise-distinct fresh indices it fills up to `n`
exactly. -/
theorem select_loop_fill (n : ℕ) (gap : ℤ) (hgap : gap ≤ 1) :
    ∀ (q sel : List FrameDict), (q.map FrameDict.index).Nodup →
      (∀ d ∈ q, d.index ∉ sel.map FrameDict.index) → sel.length ≤ n →
      (select_loop n gap q sel).length = min n (sel.length + q.length) := by
  intro q
  induction q with
  | nil =>
      intro sel _ _ hlen
      simp only [select_loop, List.length_nil, Nat.add_zero]
      omega
  | cons d ds ih =>
      intro sel hnd hfresh hlen
      simp only [select_loop]
      by_cases h1 : n ≤ sel.length
      · have : sel.length = n := le_antisymm hlen h1
        rw [if_pos h1, this]
        simp only [List.length_cons]
        omega
      · rw [if_neg h1]
        have hdge : is_gap_sufficient d.index sel gap = true := by
          unfold is_gap_sufficient
          rw [List.all_eq_true]
          intro s hs
          rw [decide_eq_true_iff]
          have hne : d.index ≠ s.index := by
            intro hcontra
            exact hfresh d (List.mem_cons_self d ds)
              (by rw [hcontra]; exact List.mem_map_of_mem FrameDict.index hs)
          have : (d.index : ℤ) ≠ (s.index : ℤ) := by exact_mod_cast hne
          have habs : 1 ≤ |(d.index : ℤ) - (s.index : ℤ)| := by
            rcases lt_or_gt_of_ne this with hlt | hgt
            · rw [abs_of_neg (by omega)]; omega
            · rw [abs_of_pos (by omega)]; omega
          omega
        rw [if_pos hdge]
        rw [List.map_cons] at hnd
        rcases List.nodup_cons.mp hnd with ⟨hd, hds⟩
        have hres := ih (sel ++ [d]) hds ?_ ?_
        · rw [hres]
          simp only [List.length_append, List.length_cons, List.length_nil]
          omega
        · intro e he
          simp only [List.map_append, List.map_cons, List.map_nil]
          rw [List.mem_append]
          rintro (hmem | hmem)
          · exact hfresh e (List.mem_cons_of_mem d he) hmem
          · simp only [List.mem_singleton] at hmem
            exact hd (hmem ▸ List.mem_map_of_mem FrameDict.index he)
        · simp only [List.length_append, List.length_cons, List.length_nil]
          omega

/-! ### The final index lookup of best-n -/

theorem lookup_selected_eq (frames : List FrameData) :
    ∀ (ds : List FrameDict) (l : List FrameData),
      lookup_selected frames ds = some l →
      (∀ d ∈ ds, d.index < frames.length) ∧
        l = ds.map (fun d => frames.getD d.index default) := by
  intro ds
  induction ds with
  | nil =>
      intro l h
      simp only [lookup_selected, Option.some.injEq] at h
      simp [← h]
  | cons d ds ih =>
      intro l h
      simp only [lookup_selected] at h
      rcases hget : frames.get? d.index with _ | f
      · rw [hget] at h; cases h
      · rw [hget] at h
        rcases hrest : lookup_selected frames ds with _ | fs
        · rw [hrest] at h; cases h
        · rw [hrest] at h
          simp only [Option.some.injEq] at h
          rcases ih fs hrest with ⟨hlt, heq⟩
          have hdlt : d.index < frames.length := by
            by_contra hge
            rw [List.get?_eq_none.mpr (by omega)] at hget
            cases hget
          refine ⟨?_, ?_⟩
          · intro e he
            rcases List.mem_cons.mp he with rfl | he2
            · exact hdlt
            · exact hlt e he2
          · have hgd : frames.getD d.index default = f := by
              rw [List.getD_eq_getElem?_getD, ← List.get?_eq_getElem?, hget]; rfl
            rw [← h, List.map_cons, ← heq, hgd]

theorem lookup_selected_total (frames : List FrameData) :
    ∀ (ds : List FrameDict), (∀ d ∈ ds, d.index < frames.length) →
      lookup_selected frames ds =
        some (ds.map (fun d => frames.getD d.index default)) := by
  intro ds
  induction ds with
  | nil => intro _; simp [lookup_selected]
  | cons d ds ih =>
      intro h
      have hdlt := h d (List.mem_cons_self d ds)
      have hget : frames.get? d.index = some (frames.getD d.index default) := by
        rcases hg : frames.get? d.index with _ | f
        · rw [List.get?_eq_none] at hg; omega
        · rw [List.getD_eq_getElem?_getD, ← List.get?_eq_getElem?, hg]; rfl
      simp only [lookup_selected, hget, ih (fun e he => h e (List.mem_cons_of_mem d he)),
        List.map_cons]

/-! ### Invariants of the best-n selection -/

theorem frames_to_dict_map_index (frames : List FrameData) :
    (frames_to_dict frames).map FrameDict.index = frames.map FrameData.index := by
  simp [frames_to_dict, List.map_map]

/-- The dict list `_select_best_n_frames` feeds into the two greedy passes,
after the clamp of `n`: first pass result, extended by the second pass when
the first did not reach `n`. -/
def best_n_sel2 (frames : List FrameData) (nn : ℕ) (mb : ℤ) : List FrameDict :=
  let frames_dict := frames_to_dict frames
  let sel1 := select_initial_segments frames_dict nn mb
  if sel1.length < nn then fill_remaining_slots frames_dict nn mb sel1 else sel1

theorem select_best_n_frames_eq (frames : List FrameData) (n mb : ℤ) (hn : ¬n ≤ 0) :
    select_best_n_frames frames n mb =
      (lookup_selected frames (best_n_sel2 frames (min n.toNat frames.length) mb)).map
        sort_by_index := by
  simp only [select_best_n_frames, if_neg hn, best_n_sel2]

theorem best_n_sel2_mem (frames : List FrameData) (nn : ℕ) (mb : ℤ) :
    ∀ d ∈ best_n_sel2 frames nn mb, d ∈ frames_to_dict frames := by
  intro d hd
  unfold best_n_sel2 at hd
  simp only at hd
  have h1 : ∀ e ∈ select_initial_segments (frames_to_dict frames) nn mb,
      e ∈ frames_to_dict frames := by
    intro e he
    unfold select_initial_segments at he
    rcases select_loop_structure nn mb (sort_by_score (frames_to_dict frames)) [] with
      ⟨ext, heq, hsub⟩
    rw [heq, List.nil_append] at he
    exact (sort_by_score_perm (frames_to_dict frames)).subset (hsub.subset he)
  by_cases hc :
      (select_initial_segments (frames_to_dict frames) nn mb).length < nn
  · rw [if_pos hc] at hd
    unfold fill_remaining_slots at hd
    simp only at hd
    rcases select_loop_structure nn (relaxed_gap mb)
        (sort_by_score ((frames_to_dict frames).filter
          (fun d => !(decide (d.index ∈
            (select_initial_segments (frames_to_dict frames) nn mb).map
              FrameDict.index)))))
        (select_initial_segments (frames_to_dict frames) nn mb) with ⟨ext, heq, hsub⟩
    rw [heq] at hd
    rcases List.mem_append.mp hd with hmem | hmem
    · exact h1 d hmem
    · have := (sort_by_score_perm _).subset (hsub.subset hmem)
      exact List.mem_of_mem_filter this
  · rw [if_neg hc] at hd
    exact h1 d hd

theorem best_n_sel2_nodup (frames : List FrameData) (nn : ℕ) (mb : ℤ)
    (hnd : (frames.map FrameData.index).Nodup) :
    ((best_n_sel2 frames nn mb).map FrameDict.index).Nodup := by
  have hfd : ((frames_to_dict frames).map FrameDict.index).Nodup := by
    rw [frames_to_dict_map_index]; exact hnd
  have hsorted : ((sort_by_score (frames_to_dict frames)).map FrameDict.index).Nodup :=
    ((sort_by_score_perm (frames_to_dict frames)).map FrameDict.index).nodup_iff.mpr hfd
  have hsel1 : ((select_initial_segments (frames_to_dict frames) nn mb).map
      FrameDict.index).Nodup := by
    unfold select_initial_segments
    exact select_loop_nodup nn mb _ [] (by simpa using hsorted)
  unfold best_n_sel2
  simp only
  by_cases hc : (select_initial_segments (frames_to_dict frames) nn mb).length < nn
  · rw [if_pos hc]
    unfold fill_remaining_slots
    simp only
    set sel1 := select_initial_segments (frames_to_dict frames) nn mb with hsel1def
    set unselected := (frames_to_dict frames).filter
      (fun d => !(decide (d.index ∈ sel1.map FrameDict.index))) with hunsel
    have hqueue : ((sort_by_score unselected).map FrameDict.index).Nodup := by
      refine ((sort_by_score_perm unselected).map FrameDict.index).nodup_iff.mpr ?_
      exact ((List.filter_sublist _).map FrameDict.index).nodup hfd
    refine select_loop_nodup nn (relaxed_gap mb) _ sel1 ?_
    rw [List.map_append]
    rw [List.nodup_append]
    refine ⟨hsel1, hqueue, ?_⟩
    intro a ha hb
    rcases List.mem_map.mp hb with ⟨e, he, hei⟩
    have he2 : e ∈ unselected := (sort_by_score_perm unselected).subset he
    have := List.of_mem_filter he2
    rw [Bool.not_eq_eq_eq_not, Bool.not_true, decide_eq_false_iff_not] at this
    exact this (hei ▸ ha)
  · rw [if_neg hc]
    exact hsel1

theorem best_n_sel2_length_le (frames : List FrameData) (nn : ℕ) (mb : ℤ) :
    (best_n_sel2 frames nn mb).length ≤ nn := by
  have hsel1 : (select_initial_segments (frames_to_dict frames) nn mb).length ≤ nn := by
    unfold select_initial_segments
    exact select_loop_length_le nn mb _ [] (by simp)
  unfold best_n_sel2
  simp only
  by_cases hc : (select_initial_segments (frames_to_dict frames) nn mb).length < nn
  · rw [if_pos hc]
    unfold fill_remaining_slots
    simp only
    exact select_loop_length_le nn (relaxed_gap mb) _ _ hsel1
  · rw [if_neg hc]
    exact hsel1

theorem index_map_nodup (frames : List FrameData)
    (hsort : frames.Pairwise (fun a b => a.index < b.index)) :
    (frames.map FrameData.index).Nodup := by
  refine List.pairwise_map.mpr ?_
  exact hsort.imp Nat.ne_of_lt

theorem getD_index_strict_mono (frames : List FrameData)
    (hsort : frames.Pairwise (fun a b => a.index < b.index))
    {i j : ℕ} (hi : i < frames.length) (hj : j < frames.length) (hij : i < j) :
    (frames.getD i default).index < (frames.getD j default).index := by
  rw [List.getD_eq_getElem frames default hi, List.getD_eq_getElem frames default hj]
  have := List.pairwise_iff_get.mp hsort ⟨i, hi⟩ ⟨j, hj⟩ hij
  simpa [List.get_eq_getElem] using this

/-- When `_select_best_n_frames` returns (rather than raising `IndexError`),
its output is a sublist of the input with strictly increasing indices,
provided the input indices strictly increase. -/
theorem select_best_n_ok (frames : List FrameData) (n mb : ℤ) (out : List FrameData)
    (hsort : frames.Pairwise (fun a b => a.index < b.index))
    (hok : select_best_n_frames frames n mb = some out) :
    out.Sublist frames ∧ out.Pairwise (fun a b => a.index < b.index) := by
  by_cases hn : n ≤ 0
  · simp only [select_best_n_frames, if_pos hn, Option.some.injEq] at hok
    rw [← hok]
    exact ⟨List.nil_sublist _, List.Pairwise.nil⟩
  · rw [select_best_n_frames_eq frames n mb hn] at hok
    rcases Option.map_eq_some'.mp hok with ⟨l0, hl0, hout⟩
    rcases lookup_selected_eq frames _ l0 hl0 with ⟨hlt, hl0eq⟩
    have hnd : ((best_n_sel2 frames (min n.toNat frames.length) mb).map
        FrameDict.index).Nodup :=
      best_n_sel2_nodup frames _ mb (index_map_nodup frames hsort)
    have hmapmap : l0.map FrameData.index =
        ((best_n_sel2 frames (min n.toNat frames.length) mb).map FrameDict.index).map
          (fun i => (frames.getD i default).index) := by
      rw [hl0eq]; simp [List.map_map]
    have hiN : ∀ i ∈ (best_n_sel2 frames (min n.toNat frames.length) mb).map
        FrameDict.index, i < frames.length := by
      intro i hi
      rcases List.mem_map.mp hi with ⟨d, hd, rfl⟩
      exact hlt d hd
    have hmem0 : ∀ x ∈ l0, x ∈ frames := by
      rw [hl0eq]
      intro x hx
      rcases List.mem_map.mp hx with ⟨d, hd, rfl⟩
      have hdn := hlt d hd
      rw [List.getD_eq_getElem frames default hdn]
      exact List.getElem_mem hdn
    have hndl0 : (l0.map FrameData.index).Nodup := by
      rw [hmapmap]
      refine List.Nodup.map_on ?_ hnd
      intro i hi j hj hgij
      by_contra hne
      rcases Nat.lt_or_ge i j with hij | hij
      · exact absurd hgij
          (Nat.ne_of_lt (getD_index_strict_mono frames hsort (hiN i hi) (hiN j hj) hij))
      · have hji : j < i := lt_of_le_of_ne hij (fun h => hne h.symm)
        exact absurd hgij.symm
          (Nat.ne_of_lt (getD_index_strict_mono frames hsort (hiN j hj) (hiN i hi) hji))
    rw [← hout]
    have hperm := sort_by_index_perm l0
    have hmemout : ∀ x ∈ sort_by_index l0, x ∈ frames := fun x hx =>
      hmem0 x (hperm.subset hx)
    have hndout : ((sort_by_index l0).map FrameData.index).Nodup :=
      ((hperm.map FrameData.index).nodup_iff).mpr hndl0
    have hlt2 := pairwise_lt_of_pairwise_le_nodup _ (sort_by_index_sorted l0) hndout
    exact ⟨sublist_of_sorted_mem frames hsort _ hlt2 hmemout, hlt2⟩

/-! ### Structure of the batched selection -/

theorem foldl_append_filterMap (g : ℕ → Option FrameData) :
    ∀ (l : List ℕ) (acc : List FrameData),
      l.foldl (fun a i => match g i with | some b => a ++ [b] | none => a) acc =
        acc ++ l.filterMap g := by
  intro l
  induction l with
  | nil => intro acc; simp
  | cons i is ih =>
      intro acc
      simp only [List.foldl_cons, List.filterMap_cons]
      rcases hg : g i with _ | b
      · simp [ih acc]
      · rw [ih (acc ++ [b])]
        simp

/-- `_select_batched_frames`, rewritten as one `max` per batch. -/
theorem select_batched_frames_eq (frames : List FrameData) (batch_count : ℤ)
    (hb : ¬batch_count ≤ 0) :
    select_batched_frames frames batch_count =
      (List.range (min batch_count.toNat frames.length)).filterMap
        (fun i => max_by_sharpness
          (batch_of frames (min batch_count.toNat frames.length)
            (if 0 < min batch_count.toNat frames.length then
              frames.length / min batch_count.toNat frames.length else 1) i)) := by
  simp only [select_batched_frames, if_neg hb]
  rw [foldl_append_filterMap]
  simp

theorem pick_max_mem (cur : FrameData) : ∀ l : List FrameData, pick_max cur l ∈ cur :: l := by
  intro l
  induction l generalizing cur with
  | nil => simp [pick_max]
  | cons f fs ih =>
      simp only [pick_max]
      split
      · have := ih f
        rcases List.mem_cons.mp this with h | h
        · rw [h]; simp
        · exact List.mem_cons_of_mem _ (List.mem_cons_of_mem _ h)
      · have := ih cur
        rcases List.mem_cons.mp this with h | h
        · rw [h]; simp
        · exact List.mem_cons_of_mem _ (List.mem_cons_of_mem _ h)

theorem max_by_sharpness_mem (l : List FrameData) (b : FrameData)
    (h : max_by_sharpness l = some b) : b ∈ l := by
  cases l with
  | nil => cases h
  | cons f fs =>
      simp only [max_by_sharpness, Option.some.injEq] at h
      rw [← h]
      exact pick_max_mem f fs

theorem mem_slice (frames : List FrameData) (a b : ℕ) (x : FrameData)
    (hx : x ∈ list_slice frames a b) :
    ∃ p, a ≤ p ∧ p < b ∧ ∃ hp : p < frames.length, frames.getD p default = x := by
  unfold list_slice at hx
  rcases List.mem_iff_get.mp hx with ⟨k, hk⟩
  have hk1 : (k : ℕ) < b - a ∧ (k : ℕ) < frames.length - a := by
    have := k.isLt
    simp only [List.length_take, List.length_drop] at this
    omega
  have hpN : a + (k : ℕ) < frames.length := by omega
  refine ⟨a + (k : ℕ), by omega, by omega, hpN, ?_⟩
  rw [List.getD_eq_getElem frames default hpN, ← hk]
  rw [List.get_eq_getElem]
  rw [List.getElem_take, List.getElem_drop]

theorem slice_sublist (frames : List FrameData) (a b : ℕ) :
    (list_slice frames a b).Sublist frames := by
  unfold list_slice
  exact (List.take_sublist _ _).trans (List.drop_sublist _ _)

/-- Distinct batches hold positions from disjoint, increasing ranges, so the
frames `max` picks from them have strictly increasing indices. -/
theorem batch_max_index_lt (frames : List FrameData)
    (hsort : frames.Pairwise (fun a b => a.index < b.index))
    (bc bs i j : ℕ) (hij : i < j) (hj : j < bc) (x y : FrameData)
    (hx : max_by_sharpness (batch_of frames bc bs i) = some x)
    (hy : max_by_sharpness (batch_of frames bc bs j) = some y) :
    x.index < y.index := by
  have hxmem := max_by_sharpness_mem _ _ hx
  have hymem := max_by_sharpness_mem _ _ hy
  unfold batch_of at hxmem hymem
  rcases mem_slice frames _ _ x hxmem with ⟨p, hpa, hpb, hpN, hpx⟩
  rcases mem_slice frames _ _ y hymem with ⟨q, hqa, _, hqN, hqy⟩
  have hineq : i ≠ bc - 1 := by omega
  rw [if_neg hineq] at hpb
  have hpq : p < q := by
    have h1 : p < (i + 1) * bs := lt_of_lt_of_le hpb (min_le_left _ _)
    have h2 : (i + 1) * bs ≤ j * bs := Nat.mul_le_mul_right bs hij
    omega
  rw [← hpx, ← hqy]
  exact getD_index_strict_mono frames hsort hpN hqN hpq

/-- The batched output is a sublist of the input with strictly increasing
indices, provided the input indices strictly increase. -/
theorem select_batched_ok (frames : List FrameData) (batch_count : ℤ)
    (hsort : frames.Pairwise (fun a b => a.index < b.index)) :
    (select_batched_frames frames batch_count).Sublist frames ∧
      (select_batched_frames frames batch_count).Pairwise
        (fun a b => a.index < b.index) := by
  by_cases hb : batch_count ≤ 0
  · simp [select_batched_frames, if_pos hb]
  · rw [select_batched_frames_eq frames batch_count hb]
    set bc := min batch_count.toNat frames.length with hbc
    set bs := if 0 < bc then frames.length / bc else 1 with hbs
    have hpair : ((List.range bc).filterMap
        (fun i => max_by_sharpness (batch_of frames bc bs i))).Pairwise
          (fun a b => a.index < b.index) := by
      rw [List.pairwise_filterMap]
      have hbase := List.pairwise_lt_range bc
      refine hbase.imp_of_mem ?_
      intro i j hi hj hij
      intro x hx y hy
      rw [Option.mem_def] at hx hy
      exact batch_max_index_lt frames hsort bc bs i j hij (List.mem_range.mp hj) x y hx hy
    have hmem : ∀ x ∈ (List.range bc).filterMap
        (fun i => max_by_sharpness (batch_of frames bc bs i)), x ∈ frames := by
      intro x hx
      rcases List.mem_filterMap.mp hx with ⟨i, _, hsome⟩
      have := max_by_sharpness_mem _ _ hsome
      unfold batch_of at this
      exact (slice_sublist frames _ _).subset this
    exact ⟨sublist_of_sorted_mem frames hsort _ hpair hmem, hpair⟩

/-! ### Structure of the outlier-removal selection -/

theorem enum_frames_map_snd : ∀ (k : ℕ) (l : List FrameData),
    (enum_frames k l).map Prod.snd = l := by
  intro k l
  induction l generalizing k with
  | nil => simp [enum_frames]
  | cons f fs ih => simp [enum_frames, ih]

/-- The outlier-removal output is always a sublist of the input (it is a
filter of the enumerated input). -/
theorem select_outlier_removal_sublist (frames : List FrameData) (factor : ℚ)
    (window_size : ℕ) :
    (select_outlier_removal_frames frames factor window_size).Sublist frames := by
  unfold select_outlier_removal_frames
  by_cases h1 : frames = []
  · simp [h1]
  · rw [if_neg h1]
    simp only
    by_cases h2 : frames.map (fun f => f.sharpness_score) = []
    · rw [if_pos h2]
    · rw [if_neg h2]
      have hsub : (((enum_frames 0 frames).filter
          (fun p => !(is_frame_outlier p.1 frames
            (list_max (frames.map (fun f => f.sharpness_score)) -
              list_min (frames.map (fun f => f.sharpness_score)))
            (derived_sensitivity factor) window_size))).map Prod.snd).Sublist
          ((enum_frames 0 frames).map Prod.snd) :=
        (List.filter_sublist _).map Prod.snd
      rw [enum_frames_map_snd] at hsub
      exact hsub

/-! ### C1: order preservation for every policy -/

/-- C1: for any input whose `index` values strictly increase and any method
and parameters, whenever `select_frames` returns a list (rather than
raising), that list is a subsequence of the input, its `index` values
strictly increase (hence are pairwise distinct), and each output index is
one of the input's indices. -/
theorem select_frames_order_preservation (frames : List FrameData) (method : String)
    (p : SelectParams) (out : List FrameData)
    (hsort : frames.Pairwise (fun a b => a.index < b.index))
    (hok : select_frames frames method p = Except.ok out) :
    out.Sublist frames ∧ out.Pairwise (fun a b => a.index < b.index) ∧
      ∀ x ∈ out, x.index ∈ frames.map FrameData.index := by
  have hmain : out.Sublist frames ∧ out.Pairwise (fun a b => a.index < b.index) := by
    unfold select_frames at hok
    by_cases h1 : frames = []
    · rw [if_pos h1] at hok
      cases hok
      subst h1
      exact ⟨List.Sublist.refl _, List.Pairwise.nil⟩
    · rw [if_neg h1] at hok
      by_cases h2 : method = "best_n"
      · rw [if_pos h2] at hok
        rcases hbn : select_best_n_frames frames p.n p.min_buffer with _ | l
        · rw [hbn] at hok; cases hok
        · rw [hbn] at hok
          cases hok
          exact select_best_n_ok frames p.n p.min_buffer out hsort hbn
      · rw [if_neg h2] at hok
        by_cases h3 : method = "batched"
        · rw [if_pos h3] at hok
          cases hok
          exact select_batched_ok frames p.batch_count hsort
        · rw [if_neg h3] at hok
          by_cases h4 : method = "outlier_removal"
          · rw [if_pos h4] at hok
            cases hok
            have hsub := select_outlier_removal_sublist frames p.factor p.window_size
            exact ⟨hsub, List.Pairwise.sublist hsub hsort⟩
          · rw [if_neg h4] at hok
            cases hok
  refine ⟨hmain.1, hmain.2, ?_⟩
  intro x hx
  exact List.mem_map_of_mem FrameData.index (hmain.1.subset hx)

/-- Witness for C1 at a concrete one-frame input under the batched policy. -/
theorem select_frames_order_preservation_witness :
    ([⟨"f0", 0, 0, none, none, none⟩] : List FrameData).Pairwise
        (fun a b => a.index < b.index) ∧
      (([⟨"f0", 0, 0, none, none, none⟩] : List FrameData).Sublist
          [⟨"f0", 0, 0, none, none, none⟩] ∧
        ([⟨"f0", 0, 0, none, none, none⟩] : List FrameData).Pairwise
          (fun a b => a.index < b.index) ∧
        ∀ x ∈ ([⟨"f0", 0, 0, none, none, none⟩] : List FrameData),
          x.index ∈ ([⟨"f0", 0, 0, none, none, none⟩] : List FrameData).map
            FrameData.index) :=
  ⟨by decide,
    select_frames_order_preservation [⟨"f0", 0, 0, none, none, none⟩] "batched"
      ⟨300, 3, 5, mkRat 3 2, 15⟩ [⟨"f0", 0, 0, none, none, none⟩] (by decide) rfl⟩

/-! ### C4: the batched partition -/

/-- `m` is the earliest frame of `l` attaining the maximal sharpness score:
everything before it is strictly dimmer, everything in `l` is at most as
sharp. -/
def is_earliest_max (l : List FrameData) (m : FrameData) : Prop :=
  ∃ l1 l2, l = l1 ++ m :: l2 ∧
    (∀ x ∈ l1, x.sharpness_score < m.sharpness_score) ∧
    ∀ x ∈ l, x.sharpness_score ≤ m.sharpness_score

theorem pick_max_earliest : ∀ (l : List FrameData) (cur : FrameData),
    is_earliest_max (cur :: l) (pick_max cur l) := by
  intro l
  induction l with
  | nil =>
      intro cur
      exact ⟨[], [], by simp [pick_max], by simp, by simp [pick_max]⟩
  | cons f fs ih =>
      intro cur
      simp only [pick_max]
      by_cases hcf : cur.sharpness_score < f.sharpness_score
      · rw [if_pos hcf]
        rcases ih f with ⟨l1, l2, heq, hlt, hle⟩
        have hfm : f.sharpness_score ≤ (pick_max f fs).sharpness_score :=
          hle f (List.mem_cons_self f fs)
        refine ⟨cur :: l1, l2, by rw [List.cons_append, ← heq], ?_, ?_⟩
        · intro x hx
          rcases List.mem_cons.mp hx with rfl | hx2
          · exact lt_of_lt_of_le hcf hfm
          · exact hlt x hx2
        · intro x hx
          rcases List.mem_cons.mp hx with rfl | hx2
          · exact le_of_lt (lt_of_lt_of_le hcf hfm)
          · exact hle x hx2
      · rw [if_neg hcf]
        push_neg at hcf
        rcases ih cur with ⟨l1, l2, heq, hlt, hle⟩
        cases l1 with
        | nil =>
            simp only [List.nil_append, List.cons.injEq] at heq
            have hm : pick_max cur fs = cur := heq.1.symm
            rw [hm] at hle ⊢
            refine ⟨[], f :: fs, by simp, by simp, ?_⟩
            intro x hx
            rcases List.mem_cons.mp hx with rfl | hx2
            · exact le_refl _
            · rcases List.mem_cons.mp hx2 with rfl | hx3
              · exact hcf
              · exact hle x (List.mem_cons_of_mem cur hx3)
        | cons a l1t =>
            simp only [List.cons_append, List.cons.injEq] at heq
            rcases heq with ⟨rfl, heq2⟩
            have hcurm : cur.sharpness_score < (pick_max cur fs).sharpness_score :=
              hlt cur (List.mem_cons_self cur l1t)
            refine ⟨cur :: f :: l1t, l2, ?_, ?_, ?_⟩
            · rw [List.cons_append, List.cons_append, ← heq2]
            · intro x hx
              rcases List.mem_cons.mp hx with rfl | hx2
              · exact hcurm
              · rcases List.mem_cons.mp hx2 with rfl | hx3
                · exact lt_of_le_of_lt hcf hcurm
                · exact hlt x (List.mem_cons_of_mem cur hx3)
            · intro x hx
              rcases List.mem_cons.mp hx with rfl | hx2
              · exact hle x (List.mem_cons_self x fs)
              · rcases List.mem_cons.mp hx2 with rfl | hx3
                · exact le_trans hcf (hle cur (List.mem_cons_self cur fs))
                · exact hle x (List.mem_cons_of_mem cur hx3)

theorem max_by_sharpness_earliest (l : List FrameData) (b : FrameData)
    (h : max_by_sharpness l = some b) : is_earliest_max l b := by
  cases l with
  | nil => cases h
  | cons f fs =>
      simp only [max_by_sharpness, Option.some.injEq] at h
      rw [← h]
      exact pick_max_earliest fs f

theorem batch_of_length_mid (frames : List FrameData) (nb sz i : ℕ)
    (hi : i < nb - 1) (hle : nb * sz ≤ frames.length) :
    (batch_of frames nb sz i).length = sz := by
  unfold batch_of list_slice
  rw [if_neg (by omega)]
  have h1 : (i + 1) * sz ≤ frames.length :=
    le_trans (Nat.mul_le_mul_right sz (by omega)) hle
  rw [min_eq_left h1]
  have h2 : (i + 1) * sz = i * sz + sz := Nat.succ_mul i sz
  simp only [List.length_take, List.length_drop]
  omega

theorem batch_of_last (frames : List FrameData) (nb sz : ℕ) :
    batch_of frames nb sz (nb - 1) = frames.drop ((nb - 1) * sz) := by
  unfold batch_of list_slice
  rw [if_pos rfl]
  exact List.take_of_length_le (by simp [List.length_drop])

theorem batch_of_last_length (frames : List FrameData) (nb sz : ℕ) (h0 : 0 < nb)
    (hsz : 0 < sz) (hle : nb * sz ≤ frames.length) :
    0 < (batch_of frames nb sz (nb - 1)).length := by
  rw [batch_of_last]
  have h2 : (nb - 1) * sz = nb * sz - sz := by
    rw [Nat.sub_mul, Nat.one_mul]
  have h4 : sz ≤ nb * sz := Nat.le_mul_of_pos_left sz h0
  simp only [List.length_drop]
  omega

theorem batch_of_nonempty (frames : List FrameData) (nb sz : ℕ) (i : ℕ) (hi : i < nb)
    (hsz : 0 < sz) (hle : nb * sz ≤ frames.length) :
    batch_of frames nb sz i ≠ [] := by
  rw [← List.length_pos_iff_ne_nil]
  by_cases hlast : i = nb - 1
  · rw [hlast]
    exact batch_of_last_length frames nb sz (by omega) hsz hle
  · rw [batch_of_length_mid frames nb sz i (by omega) hle]
    exact hsz

theorem join_batches_aux (frames : List FrameData) (nb sz : ℕ)
    (hle : nb * sz ≤ frames.length) :
    ∀ (m k : ℕ), k + m + 1 = nb →
      ((List.range' k (m + 1)).map (batch_of frames nb sz)).flatten =
        frames.drop (k * sz) := by
  intro m
  induction m with
  | zero =>
      intro k hk
      have hk2 : k = nb - 1 := by omega
      have hr : List.range' k (0 + 1) = [k] := by norm_num
      rw [hr]
      simp only [List.map_cons, List.map_nil, List.flatten_cons, List.flatten_nil,
        List.append_nil]
      rw [hk2, batch_of_last]
  | succ m ih =>
      intro k hk
      rw [List.range'_succ, List.map_cons, List.flatten_cons, ih (k + 1) (by omega)]
      have hmid : batch_of frames nb sz k = (frames.drop (k * sz)).take sz := by
        unfold batch_of list_slice
        rw [if_neg (by omega)]
        have h1 : (k + 1) * sz ≤ frames.length :=
          le_trans (Nat.mul_le_mul_right sz (by omega)) hle
        rw [min_eq_left h1]
        have h2 : (k + 1) * sz - k * sz = sz := by
          rw [Nat.add_mul, Nat.one_mul]
          omega
        rw [h2]
      rw [hmid]
      have h3 : (k + 1) * sz = k * sz + sz := by
        rw [Nat.add_mul, Nat.one_mul]
      rw [h3, ← List.drop_drop, List.take_append_drop]

theorem join_batches (frames : List FrameData) (nb sz : ℕ) (h0 : 0 < nb)
    (hle : nb * sz ≤ frames.length) :
    ((List.range nb).map (batch_of frames nb sz)).flatten = frames := by
  have h1 : List.range nb = List.range' 0 ((nb - 1) + 1) := by
    rw [List.range_eq_range']
    congr 1
    omega
  rw [h1, join_batches_aux frames nb sz hle (nb - 1) 0 (by omega)]
  simp

theorem filterMap_total_eq_map (g : ℕ → Option FrameData) :
    ∀ (l : List ℕ), (∀ i ∈ l, g i ≠ none) →
      l.filterMap g = l.map (fun i => (g i).getD default) := by
  intro l
  induction l with
  | nil => intro _; simp
  | cons i is ih =>
      intro h
      rw [List.filterMap_cons, List.map_cons]
      rcases hg : g i with _ | b
      · exact absurd hg (h i (List.mem_cons_self i is))
      · rw [ih (fun j hj => h j (List.mem_cons_of_mem i hj))]
        simp [hg]

/-- C4: for `batch_count ≥ 1` on a non-empty input, the batches cover the
input exactly (their concatenation is the input), every non-final batch has
size `len // min(batch_count, len)`, the result has exactly
`min(batch_count, len)` frames, position `i` of the result is the earliest
maximal-score frame of batch `i`, and (for an index-sorted input) the result
is in index order. -/
theorem select_batched_partition_spec (frames : List FrameData) (batch_count : ℤ)
    (hB : 1 ≤ batch_count) (hne : frames ≠ []) :
    ((List.range (min batch_count.toNat frames.length)).map
        (batch_of frames (min batch_count.toNat frames.length)
          (frames.length / min batch_count.toNat frames.length))).flatten = frames ∧
      (∀ i, i < min batch_count.toNat frames.length - 1 →
        (batch_of frames (min batch_count.toNat frames.length)
          (frames.length / min batch_count.toNat frames.length) i).length =
          frames.length / min batch_count.toNat frames.length) ∧
      (select_batched_frames frames batch_count).length =
        min batch_count.toNat frames.length ∧
      (∀ i, i < min batch_count.toNat frames.length →
        is_earliest_max
          (batch_of frames (min batch_count.toNat frames.length)
            (frames.length / min batch_count.toNat frames.length) i)
          ((select_batched_frames frames batch_count).getD i default)) ∧
      (frames.Pairwise (fun a b => a.index < b.index) →
        (select_batched_frames frames batch_count).Pairwise
          (fun a b => a.index < b.index)) := by
  have hN : 0 < frames.length := List.length_pos_iff_ne_nil.mpr hne
  set nb := min batch_count.toNat frames.length with hnb
  set sz := frames.length / nb with hsz
  have hnb0 : 0 < nb := by omega
  have hnbN : nb ≤ frames.length := by omega
  have hsz1 : 1 ≤ sz := (Nat.one_le_div_iff hnb0).mpr hnbN
  have hszle : nb * sz ≤ frames.length := by
    rw [hsz, Nat.mul_comm]
    exact Nat.div_mul_le_self frames.length nb
  have heq : select_batched_frames frames batch_count =
      (List.range nb).filterMap
        (fun i => max_by_sharpness (batch_of frames nb sz i)) := by
    rw [select_batched_frames_eq frames batch_count (by omega)]
    rw [← hnb, if_pos hnb0, ← hsz]
  have htotal : ∀ i ∈ List.range nb,
      max_by_sharpness (batch_of frames nb sz i) ≠ none := by
    intro i hi
    have hne2 := batch_of_nonempty frames nb sz i (List.mem_range.mp hi) hsz1 hszle
    cases hb : batch_of frames nb sz i with
    | nil => exact absurd hb hne2
    | cons f fs => simp [max_by_sharpness]
  have hmap : select_batched_frames frames batch_count =
      (List.range nb).map
        (fun i => (max_by_sharpness (batch_of frames nb sz i)).getD default) := by
    rw [heq, filterMap_total_eq_map _ _ htotal]
  refine ⟨join_batches frames nb sz hnb0 hszle,
    fun i hi => batch_of_length_mid frames nb sz i hi hszle, ?_, ?_, ?_⟩
  · rw [hmap, List.length_map, List.length_range]
  · intro i hi
    have hlen : i < (select_batched_frames frames batch_count).length := by
      rw [hmap, List.length_map, List.length_range]; exact hi
    rw [List.getD_eq_getElem _ default hlen]
    have hgetmap : (select_batched_frames frames batch_count)[i] =
        (max_by_sharpness (batch_of frames nb sz i)).getD default := by
      have hlen2 : i < ((List.range nb).map
          (fun i => (max_by_sharpness (batch_of frames nb sz i)).getD default)).length := by
        rw [List.length_map, List.length_range]; exact hi
      rw [List.getElem_of_eq hmap hlen, List.getElem_map, List.getElem_range]
    rw [hgetmap]
    rcases hg : max_by_sharpness (batch_of frames nb sz i) with _ | b
    · exact absurd hg (htotal i (List.mem_range.mpr hi))
    · rw [Option.getD_some]
      exact max_by_sharpness_earliest _ b hg
  · intro hsort
    exact (select_batched_ok frames batch_count hsort).2

/-- Witness for C4 on a concrete two-frame input split into two batches. -/
theorem select_batched_partition_spec_witness :
    (1 : ℤ) ≤ 2 ∧ ([⟨"a", 0, 3, none, none, none⟩, ⟨"b", 1, 7, none, none, none⟩] :
        List FrameData) ≠ [] ∧
      (select_batched_frames
        [⟨"a", 0, 3, none, none, none⟩, ⟨"b", 1, 7, none, none, none⟩] 2).length =
        min (2 : ℤ).toNat
          ([⟨"a", 0, 3, none, none, none⟩, ⟨"b", 1, 7, none, none, none⟩] :
            List FrameData).length :=
  ⟨by decide, by decide,
    (select_batched_partition_spec
      [⟨"a", 0, 3, none, none, none⟩, ⟨"b", 1, 7, none, none, none⟩] 2
      (by decide) (by decide)).2.2.1⟩

/-! ### C3: how `factor` becomes `sensitivity` -/

/-- The sensitivity conversion as the claim states it: rounding
`(2.0 - factor) * 50` to the nearest integer (Mathlib's `round`) before
clamping to `[0, 100]`. -/
def claimed_sensitivity (factor : ℚ) : ℤ :=
  max 0 (min 100 (round ((2 - factor) * 50)))

/-- Counterexample to C3: at `factor = 993/500 = 1.986` the intermediate
value is `0.7`; the code's `int()` truncates it to `0` (sensitivity 0,
keep-everything regime) while rounding to the nearest integer gives `1`. -/
theorem claimed_sensitivity_counterexample :
    derived_sensitivity ((993 : ℚ) / 500) = 0 ∧
      claimed_sensitivity ((993 : ℚ) / 500) = 1 ∧
      derived_sensitivity ((993 : ℚ) / 500) ≠ claimed_sensitivity ((993 : ℚ) / 500) := by
  have hv : ((2 : ℚ) - 993 / 500) * 50 = 7 / 10 := by norm_num
  have h1 : derived_sensitivity ((993 : ℚ) / 500) = 0 := by
    unfold derived_sensitivity ratTrunc
    rw [hv]
    norm_num
  have h2 : claimed_sensitivity ((993 : ℚ) / 500) = 1 := by
    unfold claimed_sensitivity
    rw [hv, round_eq]
    norm_num
  exact ⟨h1, h2, by rw [h1, h2]; decide⟩

theorem ratTrunc_mono {q r : ℚ} (h : q ≤ r) : ratTrunc q ≤ ratTrunc r := by
  unfold ratTrunc
  by_cases hq : 0 ≤ q
  · rw [if_pos hq, if_pos (le_trans hq h)]
    exact Int.floor_le_floor h
  · rw [if_neg hq]
    by_cases hr : 0 ≤ r
    · rw [if_pos hr]
      have h1 : ⌈q⌉ ≤ 0 := Int.ceil_le.mpr (by push_neg at hq; exact_mod_cast le_of_lt hq)
      have h2 : (0 : ℤ) ≤ ⌊r⌋ := Int.le_floor.mpr (by exact_mod_cast hr)
      omega
    · rw [if_neg hr]
      exact Int.ceil_le_ceil h

/-- C3 as amended: the conversion truncates toward zero (Python `int()`)
rather than rounding to the nearest integer.  The sensitivity equals
`clamp(trunc((2.0 - factor) * 50), 0, 100)` with truncation expressed as
sign-symmetric flooring, it always lies in `[0, 100]`, and it is antitone in
`factor` (lower factor, higher sensitivity). -/
theorem derived_sensitivity_spec (factor : ℚ) :
    derived_sensitivity factor =
      max 0 (min 100
        (if (2 - factor) * 50 < 0 then -⌊-((2 - factor) * 50)⌋
         else ⌊(2 - factor) * 50⌋)) ∧
      0 ≤ derived_sensitivity factor ∧ derived_sensitivity factor ≤ 100 ∧
      ∀ g : ℚ, factor ≤ g → derived_sensitivity g ≤ derived_sensitivity factor := by
  refine ⟨?_, le_max_left 0 _, ?_, ?_⟩
  · unfold derived_sensitivity ratTrunc
    congr 1
    congr 1
    by_cases hv : 0 ≤ (2 - factor) * 50
    · rw [if_pos hv, if_neg (by push_neg; exact hv)]
    · rw [if_neg hv, if_pos (by push_neg at hv; exact hv)]
      rw [Int.floor_neg]
      omega
  · unfold derived_sensitivity
    have h1 : min 100 (ratTrunc ((2 - factor) * 50)) ≤ 100 := min_le_left _ _
    omega
  · intro g hg
    unfold derived_sensitivity
    have hvv : (2 - g) * 50 ≤ (2 - factor) * 50 := by nlinarith
    have h1 := ratTrunc_mono hvv
    omega

/-- Witness for the amended C3 at `factor = 1/2` (sensitivity 75) and
`g = 2` (sensitivity 0). -/
theorem derived_sensitivity_spec_witness :
    derived_sensitivity 2 ≤ derived_sensitivity ((1 : ℚ) / 2) ∧
      derived_sensitivity ((1 : ℚ) / 2) = 75 := by
  constructor
  · exact (derived_sensitivity_spec ((1 : ℚ) / 2)).2.2.2 2 (by norm_num)
  · unfold derived_sensitivity ratTrunc
    have hv : ((2 : ℚ) - 1 / 2) * 50 = 75 := by norm_num
    rw [hv]
    norm_num

/-! ### C7: monotonicity in sensitivity -/

theorem outlier_threshold_antitone {s1 s2 : ℤ} (h : s1 ≤ s2) :
    outlier_threshold s2 ≤ outlier_threshold s1 := by
  unfold outlier_threshold OUTLIER_THRESHOLD_DIVISOR
  have hc : (s1 : ℚ) ≤ (s2 : ℚ) := by exact_mod_cast h
  linarith

theorem is_frame_outlier_mono (i : ℕ) (frames : List FrameData) (gr : ℚ) (ws : ℕ)
    {s1 s2 : ℤ} (h12 : s1 ≤ s2)
    (h : is_frame_outlier i frames gr s1 ws = true) :
    is_frame_outlier i frames gr s2 ws = true := by
  unfold is_frame_outlier at h ⊢
  by_cases hs1 : s1 ≤ 0
  · rw [if_pos hs1] at h; cases h
  · rw [if_neg hs1] at h
    have hs2 : ¬s2 ≤ 0 := by omega
    rw [if_neg hs2]
    by_cases h100 : 100 ≤ s2
    · rw [if_pos h100]
    · rw [if_neg h100]
      have h100a : ¬100 ≤ s1 := by omega
      rw [if_neg h100a] at h
      by_cases hlen : (neighbor_indices i frames.length ws).length < OUTLIER_MIN_NEIGHBORS
      · rw [if_pos hlen] at h; cases h
      · rw [if_neg hlen] at h ⊢
        by_cases hgr : gr = 0
        · rw [if_pos hgr] at h; cases h
        · rw [if_neg hgr] at h ⊢
          rw [Bool.and_eq_true] at h ⊢
          refine ⟨h.1, ?_⟩
          rw [decide_eq_true_iff]
          exact lt_of_le_of_lt (outlier_threshold_antitone h12) (of_decide_eq_true h.2)

theorem derived_sensitivity_antitone {f1 f2 : ℚ} (h : f1 ≤ f2) :
    derived_sensitivity f2 ≤ derived_sensitivity f1 := by
  unfold derived_sensitivity
  have hvv : (2 - f2) * 50 ≤ (2 - f1) * 50 := by nlinarith
  have h1 := ratTrunc_mono hvv
  omega

theorem select_outlier_factor_mono (frames : List FrameData) (ws : ℕ) {f1 f2 : ℚ}
    (hf : f1 ≤ f2) :
    (select_outlier_removal_frames frames f1 ws).Sublist
      (select_outlier_removal_frames frames f2 ws) := by
  unfold select_outlier_removal_frames
  by_cases h1 : frames = []
  · rw [if_pos h1, if_pos h1]
  · rw [if_neg h1, if_neg h1]
    simp only
    by_cases h2 : frames.map (fun f => f.sharpness_score) = []
    · rw [if_pos h2, if_pos h2]
    · rw [if_neg h2, if_neg h2]
      refine List.Sublist.map Prod.snd ?_
      refine List.monotone_filter_right _ ?_
      intro a ha
      rw [Bool.not_eq_eq_eq_not, Bool.not_true] at ha
      rw [Bool.not_eq_eq_eq_not, Bool.not_true]
      cases hcon : is_frame_outlier a.1 frames
          (list_max (frames.map (fun f => f.sharpness_score)) -
            list_min (frames.map (fun f => f.sharpness_score)))
          (derived_sensitivity f2) ws with
      | false => rfl
      | true =>
          have hmono := is_frame_outlier_mono a.1 frames
            (list_max (frames.map (fun f => f.sharpness_score)) -
              list_min (frames.map (fun f => f.sharpness_score))) ws
            (derived_sensitivity_antitone hf) hcon
          rw [ha] at hmono
          cases hmono

/-- C7: raising the derived sensitivity (all else fixed) never shrinks the
set of outliers, the sensitivity derived from a lower factor is at least the
one derived from a higher factor, and lowering the factor only ever removes
more frames (the kept list shrinks to a sublist, the removed count does not
decrease). -/
theorem outlier_removal_sensitivity_monotone (frames : List FrameData) (gr : ℚ)
    (ws : ℕ) (s1 s2 : ℤ) (f1 f2 : ℚ) (hs : s1 ≤ s2) (hf : f1 ≤ f2) :
    (∀ i, is_frame_outlier i frames gr s1 ws = true →
        is_frame_outlier i frames gr s2 ws = true) ∧
      derived_sensitivity f2 ≤ derived_sensitivity f1 ∧
      (select_outlier_removal_frames frames f1 ws).Sublist
        (select_outlier_removal_frames frames f2 ws) ∧
      frames.length - (select_outlier_removal_frames frames f2 ws).length ≤
        frames.length - (select_outlier_removal_frames frames f1 ws).length := by
  have hsub := select_outlier_factor_mono frames ws hf
  refine ⟨fun i => is_frame_outlier_mono i frames gr ws hs,
    derived_sensitivity_antitone hf, hsub, ?_⟩
  have := hsub.length_le
  omega

/-- Witness for C7 at concrete sensitivities 10 ≤ 20 and factors 1 ≤ 2. -/
theorem outlier_removal_sensitivity_monotone_witness :
    (10 : ℤ) ≤ 20 ∧ (1 : ℚ) ≤ 2 ∧
      ((∀ i, is_frame_outlier i [⟨"a", 0, 3, none, none, none⟩] 0 10 15 = true →
          is_frame_outlier i [⟨"a", 0, 3, none, none, none⟩] 0 20 15 = true) ∧
        derived_sensitivity 2 ≤ derived_sensitivity 1 ∧
        (select_outlier_removal_frames [⟨"a", 0, 3, none, none, none⟩] 1 15).Sublist
          (select_outlier_removal_frames [⟨"a", 0, 3, none, none, none⟩] 2 15) ∧
        ([⟨"a", 0, 3, none, none, none⟩] : List FrameData).length -
            (select_outlier_removal_frames [⟨"a", 0, 3, none, none, none⟩] 2 15).length ≤
          ([⟨"a", 0, 3, none, none, none⟩] : List FrameData).length -
            (select_outlier_removal_frames [⟨"a", 0, 3, none, none, none⟩] 1 15).length) :=
  ⟨by decide, by norm_num,
    outlier_removal_sensitivity_monotone [⟨"a", 0, 3, none, none, none⟩] 0 15 10 20 1 2
      (by decide) (by norm_num)⟩

/-! ### C2: the exact outlier condition -/

/-- The global score range `max - min` computed over the whole sequence in
`_select_outlier_removal_frames`. -/
def global_range_of (frames : List FrameData) : ℚ :=
  list_max (frames.map (fun f => f.sharpness_score)) -
    list_min (frames.map (fun f => f.sharpness_score))

/-- The drop condition exactly as the claim words it: at least 3 neighbors
in the window, nonzero global range, score below the window average, and
`(window_avg - current) / global_range * 100 > (100 - sensitivity) / 4`. -/
def outlier_drop_spec (i : ℕ) (frames : List FrameData) (sensitivity : ℤ)
    (window_size : ℕ) : Bool :=
  decide (OUTLIER_MIN_NEIGHBORS ≤ (neighbor_indices i frames.length window_size).length) &&
    decide (global_range_of frames ≠ 0) &&
    decide (current_score i frames < window_avg i frames window_size) &&
    decide ((100 - (sensitivity : ℚ)) / 4 <
      (window_avg i frames window_size - current_score i frames) /
        global_range_of frames * 100)

theorem foldl_min_le_init : ∀ (xs : List ℚ) (x : ℚ), xs.foldl min x ≤ x := by
  intro xs
  induction xs with
  | nil => intro x; exact le_refl x
  | cons y ys ih =>
      intro x
      calc (y :: ys).foldl min x = ys.foldl min (min x y) := rfl
        _ ≤ min x y := ih (min x y)
        _ ≤ x := min_le_left x y

theorem init_le_foldl_max : ∀ (xs : List ℚ) (x : ℚ), x ≤ xs.foldl max x := by
  intro xs
  induction xs with
  | nil => intro x; exact le_refl x
  | cons y ys ih =>
      intro x
      calc x ≤ max x y := le_max_left x y
        _ ≤ ys.foldl max (max x y) := ih (max x y)
        _ = (y :: ys).foldl max x := rfl

theorem list_min_le_list_max (l : List ℚ) (h : l ≠ []) : list_min l ≤ list_max l := by
  cases l with
  | nil => exact absurd rfl h
  | cons x xs =>
      calc list_min (x :: xs) = xs.foldl min x := rfl
        _ ≤ x := foldl_min_le_init xs x
        _ ≤ xs.foldl max x := init_le_foldl_max xs x
        _ = list_max (x :: xs) := rfl

theorem global_range_nonneg (frames : List FrameData) (hne : frames ≠ []) :
    0 ≤ global_range_of frames := by
  unfold global_range_of
  rw [sub_nonneg]
  refine list_min_le_list_max _ ?_
  rw [Ne, List.map_eq_nil]
  exact hne

/-- In the genuine middle regime `0 < sensitivity < 100`, the code's
early-return cascade agrees pointwise with the claim's flat conjunction. -/
theorem is_frame_outlier_eq_drop_spec (i : ℕ) (frames : List FrameData) (s : ℤ)
    (ws : ℕ) (hne : frames ≠ []) (h0 : 0 < s) (h100 : s < 100) :
    is_frame_outlier i frames (global_range_of frames) s ws =
      outlier_drop_spec i frames s ws := by
  have hgr0 : 0 ≤ global_range_of frames := global_range_nonneg frames hne
  unfold is_frame_outlier
  rw [if_neg (by omega), if_neg (by omega)]
  by_cases hlen : (neighbor_indices i frames.length ws).length < OUTLIER_MIN_NEIGHBORS
  · rw [if_pos hlen]
    unfold outlier_drop_spec
    rw [decide_eq_false (by omega)]
    simp
  · rw [if_neg hlen]
    by_cases hgr : global_range_of frames = 0
    · rw [if_pos hgr]
      unfold outlier_drop_spec
      rw [decide_eq_false (show ¬global_range_of frames ≠ 0 by simp [hgr])]
      simp
    · rw [if_neg hgr]
      have hgrpos : 0 < global_range_of frames :=
        lt_of_le_of_ne hgr0 (Ne.symm hgr)
      unfold outlier_drop_spec
      rw [decide_eq_true (show OUTLIER_MIN_NEIGHBORS ≤
        (neighbor_indices i frames.length ws).length by omega)]
      rw [decide_eq_true hgr]
      simp only [Bool.true_and]
      unfold percent_of_range outlier_threshold OUTLIER_THRESHOLD_DIVISOR
      rw [if_pos hgrpos]

/-- C2: on a non-empty input, sensitivity `≤ 0` keeps every frame,
sensitivity `≥ 100` drops every frame, and in between position `i` is
dropped exactly under the claim's flat condition `outlier_drop_spec`; the
kept frames come out in input order (filter of the enumerated input). -/
theorem select_outlier_removal_spec (frames : List FrameData) (factor : ℚ)
    (window_size : ℕ) (hne : frames ≠ []) :
    (derived_sensitivity factor ≤ 0 →
        select_outlier_removal_frames frames factor window_size = frames) ∧
      (100 ≤ derived_sensitivity factor →
        select_outlier_removal_frames frames factor window_size = []) ∧
      (0 < derived_sensitivity factor → derived_sensitivity factor < 100 →
        select_outlier_removal_frames frames factor window_size =
          ((enum_frames 0 frames).filter
            (fun p => !(outlier_drop_spec p.1 frames (derived_sensitivity factor)
              window_size))).map Prod.snd) := by
  have hmapne : frames.map (fun f => f.sharpness_score) ≠ [] := by
    rw [Ne, List.map_eq_nil]; exact hne
  have hunfold : select_outlier_removal_frames frames factor window_size =
      ((enum_frames 0 frames).filter
        (fun p => !(is_frame_outlier p.1 frames (global_range_of frames)
          (derived_sensitivity factor) window_size))).map Prod.snd := by
    unfold select_outlier_removal_frames
    rw [if_neg hne]
    simp only
    rw [if_neg hmapne]
    rfl
  refine ⟨?_, ?_, ?_⟩
  · intro hs
    rw [hunfold]
    have hall : ∀ p ∈ enum_frames 0 frames,
        (!(is_frame_outlier p.1 frames (global_range_of frames)
          (derived_sensitivity factor) window_size)) = true := by
      intro p _
      unfold is_frame_outlier
      rw [if_pos hs]
      rfl
    rw [List.filter_eq_self.mpr hall, enum_frames_map_snd]
  · intro hs
    rw [hunfold]
    have hall : ∀ p ∈ enum_frames 0 frames,
        (!(is_frame_outlier p.1 frames (global_range_of frames)
          (derived_sensitivity factor) window_size)) = false := by
      intro p _
      unfold is_frame_outlier
      rw [if_neg (by omega), if_pos hs]
      rfl
    rw [List.filter_eq_nil_iff.mpr ?_, List.map_nil]
    intro p hp
    rw [hall p hp]
    simp
  · intro h0 h100
    rw [hunfold]
    refine congrArg (List.map Prod.snd) (List.filter_congr ?_)
    intro p _
    rw [is_frame_outlier_eq_drop_spec p.1 frames (derived_sensitivity factor)
      window_size hne h0 h100]

/-- Witness for C2 at a concrete one-frame input with `factor = 2`. -/
theorem select_outlier_removal_spec_witness :
    ([⟨"a", 0, 3, none, none, none⟩] : List FrameData) ≠ [] ∧
      ((derived_sensitivity 2 ≤ 0 →
          select_outlier_removal_frames [⟨"a", 0, 3, none, none, none⟩] 2 15 =
            [⟨"a", 0, 3, none, none, none⟩]) ∧
        (100 ≤ derived_sensitivity 2 →
          select_outlier_removal_frames [⟨"a", 0, 3, none, none, none⟩] 2 15 = []) ∧
        (0 < derived_sensitivity 2 → derived_sensitivity 2 < 100 →
          select_outlier_removal_frames [⟨"a", 0, 3, none, none, none⟩] 2 15 =
            ((enum_frames 0 [⟨"a", 0, 3, none, none, none⟩]).filter
              (fun p => !(outlier_drop_spec p.1 [⟨"a", 0, 3, none, none, none⟩]
                (derived_sensitivity 2) 15))).map Prod.snd)) :=
  ⟨by decide,
    select_outlier_removal_spec [⟨"a", 0, 3, none, none, none⟩] 2 15 (by decide)⟩

/-! ### C8: the dispatcher's error contract -/

/-- Counterexample to C8 as stated: with zero frames and an unknown method
name, both entry points return the empty result and zero count instead of
raising `UnsupportedMethod` — the emptiness check precedes the method
check. -/
theorem dispatcher_empty_unknown_counterexample :
    select_frames [] "no_such_method" ⟨300, 3, 5, mkRat 3 2, 15⟩ = Except.ok [] ∧
      preview_selection [] "no_such_method" ⟨300, 3, 5, mkRat 3 2, 15⟩ = Except.ok 0 :=
  ⟨rfl, rfl⟩

/-- C8 as amended: for a NON-empty frame list, a method name outside
`{best_n, batched, outlier_removal}` makes both `select_frames` and
`preview_selection` raise `UnsupportedMethod`; with zero frames supplied,
every method name (known or not) yields the empty list / count zero rather
than an error. -/
theorem dispatcher_error_contract (frames : List FrameData) (method : String)
    (p : SelectParams)
    (hm : method ≠ "best_n" ∧ method ≠ "batched" ∧ method ≠ "outlier_removal") :
    (frames ≠ [] →
        select_frames frames method p =
          Except.error (SelectError.unsupportedMethod method) ∧
        preview_selection frames method p =
          Except.error (SelectError.unsupportedMethod method)) ∧
      (∀ m2 : String, select_frames [] m2 p = Except.ok [] ∧
        preview_selection [] m2 p = Except.ok 0) := by
  constructor
  · intro hne
    constructor
    · unfold select_frames
      rw [if_neg hne, if_neg hm.1, if_neg hm.2.1, if_neg hm.2.2]
    · unfold preview_selection
      rw [if_neg hne, if_neg hm.1, if_neg hm.2.1, if_neg hm.2.2]
  · intro m2
    constructor
    · unfold select_frames
      rw [if_pos rfl]
    · unfold preview_selection
      rw [if_pos rfl]

/-- Witness for the amended C8 with the unknown method name `"foo"`. -/
theorem dispatcher_error_contract_witness :
    (("foo" : String) ≠ "best_n" ∧ ("foo" : String) ≠ "batched" ∧
        ("foo" : String) ≠ "outlier_removal") ∧
      select_frames [⟨"a", 0, 3, none, none, none⟩] "foo" ⟨300, 3, 5, mkRat 3 2, 15⟩ =
        Except.error (SelectError.unsupportedMethod "foo") :=
  ⟨⟨by decide, by decide, by decide⟩,
    ((dispatcher_error_contract [⟨"a", 0, 3, none, none, none⟩] "foo"
        ⟨300, 3, 5, mkRat 3 2, 15⟩ ⟨by decide, by decide, by decide⟩).1
      (by decide)).1⟩

/-! ### C9: the Scorer preserves everything but the score -/

/-- Chunking never changes the scores: the chunked computation equals a
plain map of the per-path scorer (any positive chunk size). -/
theorem calculate_sharpness_parallel_eq_map (score : String → ℚ) (cs : ℕ)
    (hcs : cs ≠ 0) :
    ∀ (k : ℕ) (paths : List String), paths.length ≤ k →
      calculate_sharpness_parallel score cs paths = paths.map score := by
  intro k
  induction k with
  | zero =>
      intro paths hp
      have : paths = [] := List.eq_nil_of_length_eq_zero (by omega)
      rw [this]
      simp [calculate_sharpness_parallel]
  | succ k ih =>
      intro paths hp
      cases paths with
      | nil => simp [calculate_sharpness_parallel]
      | cons p ps =>
          rw [calculate_sharpness_parallel]
          rw [if_neg hcs]
          rw [ih ((p :: ps).drop cs) (by
            simp only [List.length_drop, List.length_cons]
            simp only [List.length_cons] at hp
            omega)]
          rw [← List.map_append, List.take_append_drop]

/-- C9: `calculate_sharpness` keeps the metadata, temp dir, input type,
frame count and frame order, and every frame keeps its path, index, source
video, source index and output name — only the sharpness score may change.
The per-path scoring (an external OpenCV computation) is modelled by the
pure `score` function. -/
theorem calculate_sharpness_preserves (score : String → ℚ) (er : ExtractionResult) :
    (calculate_sharpness score er).metadata = er.metadata ∧
      (calculate_sharpness score er).temp_dir = er.temp_dir ∧
      (calculate_sharpness score er).input_type = er.input_type ∧
      (calculate_sharpness score er).frames.length = er.frames.length ∧
      ∀ k, k < er.frames.length →
        ((calculate_sharpness score er).frames.getD k default).path =
            (er.frames.getD k default).path ∧
          ((calculate_sharpness score er).frames.getD k default).index =
            (er.frames.getD k default).index ∧
          ((calculate_sharpness score er).frames.getD k default).source_video =
            (er.frames.getD k default).source_video ∧
          ((calculate_sharpness score er).frames.getD k default).source_index =
            (er.frames.getD k default).source_index ∧
          ((calculate_sharpness score er).frames.getD k default).output_name =
            (er.frames.getD k default).output_name := by
  unfold calculate_sharpness
  by_cases hf : er.frames = []
  · rw [if_pos hf]
    refine ⟨rfl, rfl, rfl, rfl, ?_⟩
    intro k hk
    exact ⟨rfl, rfl, rfl, rfl, rfl⟩
  · rw [if_neg hf]
    simp only
    have hscores : calculate_sharpness_parallel score 100
        (er.frames.map (fun f => f.path)) =
        (er.frames.map (fun f => f.path)).map score :=
      calculate_sharpness_parallel_eq_map score 100 (by omega)
        (er.frames.map (fun f => f.path)).length _ (le_refl _)
    rw [hscores]
    have hlen : (List.zipWith update_frame_with_sharpness er.frames
        ((er.frames.map (fun f => f.path)).map score)).length = er.frames.length := by
      rw [List.length_zipWith, List.length_map, List.length_map]
      omega
    refine ⟨trivial, trivial, trivial, hlen, ?_⟩
    intro k hk
    have hk2 : k < (List.zipWith update_frame_with_sharpness er.frames
        ((er.frames.map (fun f => f.path)).map score)).length := by omega
    rw [List.getD_eq_getElem _ default hk2, List.getD_eq_getElem _ default hk,
      List.getElem_zipWith]
    simp [update_frame_with_sharpness]

/-- Witness for C9 on a concrete one-frame extraction result. -/
theorem calculate_sharpness_preserves_witness :
    (0 : ℕ) < 1 ∧
      ((calculate_sharpness (fun _ => 9)
          ⟨[⟨"a", 0, 3, none, none, none⟩], [("k", "v")], none, "video"⟩).frames.getD 0
        default).index =
        ((⟨[⟨"a", 0, 3, none, none, none⟩], [("k", "v")], none,
            "video"⟩ : ExtractionResult).frames.getD 0 default).index :=
  ⟨by decide,
    ((calculate_sharpness_preserves (fun _ => 9)
        ⟨[⟨"a", 0, 3, none, none, none⟩], [("k", "v")], none, "video"⟩).2.2.2.2 0
      (by decide)).2.1⟩

/-! ### C5, C6, C10: best-n counting and its index precondition -/

theorem map_filter_comm (p : ℕ → Bool) :
    ∀ l : List FrameDict,
      (l.filter (fun d => p d.index)).map FrameDict.index =
        (l.map FrameDict.index).filter p := by
  intro l
  induction l with
  | nil => rfl
  | cons d ds ih =>
      rw [List.map_cons, List.filter_cons, List.filter_cons]
      cases hp : p d.index with
      | false => simpa [hp] using ih
      | true => simpa [hp] using ih

theorem filter_split_length (p : ℕ → Bool) :
    ∀ L : List ℕ, (L.filter p).length + (L.filter (fun i => !(p i))).length = L.length := by
  intro L
  induction L with
  | nil => rfl
  | cons a as ih =>
      rw [List.filter_cons, List.filter_cons]
      cases hp : p a with
      | false => simp only [hp, Bool.not_false, cond_false, cond_true]; simp [ih]; omega
      | true => simp only [hp, Bool.not_true, cond_false, cond_true]; simp [ih]; omega

theorem filter_mem_perm (L S : List ℕ) (hL : L.Nodup) (hS : S.Nodup)
    (hsub : ∀ a ∈ S, a ∈ L) :
    List.Perm (L.filter (fun i => decide (i ∈ S))) S := by
  rw [List.perm_ext_iff_of_nodup (hL.filter _) hS]
  intro a
  rw [List.mem_filter, decide_eq_true_iff]
  constructor
  · exact fun h => h.2
  · exact fun h => ⟨hsub a h, h⟩

theorem relaxed_gap_le_one {mb : ℤ} (h : mb ≤ 3) : relaxed_gap mb ≤ 1 := by
  unfold relaxed_gap
  have h1 : Int.fdiv mb 2 = mb / 2 := Int.fdiv_eq_ediv mb (by norm_num)
  have h2 : mb / 2 ≤ 1 := by omega
  omega

/-- Under the 0-based identity indexing precondition, with a relaxed gap of
at most 1 and `nn ≤ len`, the two greedy passes select exactly `nn`
dicts. -/
theorem best_n_sel2_length_eq (frames : List FrameData) (nn : ℕ) (mb : ℤ)
    (hid : frames.map FrameData.index = List.range frames.length)
    (hnn : nn ≤ frames.length) (hgap : relaxed_gap mb ≤ 1) :
    (best_n_sel2 frames nn mb).length = nn := by
  have hfdi : (frames_to_dict frames).map FrameDict.index =
      List.range frames.length := by
    rw [frames_to_dict_map_index, hid]
  have hNodup : ((frames_to_dict frames).map FrameDict.index).Nodup := by
    rw [hfdi]; exact List.nodup_range frames.length
  have hsortednd : ((sort_by_score (frames_to_dict frames)).map FrameDict.index).Nodup :=
    ((sort_by_score_perm (frames_to_dict frames)).map FrameDict.index).nodup_iff.mpr hNodup
  set sel1 := select_initial_segments (frames_to_dict frames) nn mb with hsel1def
  have hsel1len : sel1.length ≤ nn := by
    rw [hsel1def]
    unfold select_initial_segments
    exact select_loop_length_le nn mb _ [] (by simp)
  have hsel1nodup : (sel1.map FrameDict.index).Nodup := by
    rw [hsel1def]
    unfold select_initial_segments
    exact select_loop_nodup nn mb _ [] (by simpa using hsortednd)
  have hsel1sub : ∀ i ∈ sel1.map FrameDict.index, i ∈ List.range frames.length := by
    intro i hi
    rcases List.mem_map.mp hi with ⟨d, hd, rfl⟩
    have hd2 : d ∈ frames_to_dict frames := by
      rw [hsel1def] at hd
      unfold select_initial_segments at hd
      rcases select_loop_structure nn mb (sort_by_score (frames_to_dict frames)) []
        with ⟨ext, heq, hsubl⟩
      rw [heq, List.nil_append] at hd
      exact (sort_by_score_perm (frames_to_dict frames)).subset (hsubl.subset hd)
    rw [← hfdi]
    exact List.mem_map_of_mem FrameDict.index hd2
  unfold best_n_sel2
  simp only [← hsel1def]
  by_cases hc : sel1.length < nn
  · rw [if_pos hc]
    unfold fill_remaining_slots
    simp only
    set S := sel1.map FrameDict.index with hSdef
    set unselected := (frames_to_dict frames).filter
      (fun d => !(decide (d.index ∈ S))) with hundef
    have hunsel_map : unselected.map FrameDict.index =
        (List.range frames.length).filter (fun i => !(decide (i ∈ S))) := by
      rw [hundef, ← hfdi]
      exact map_filter_comm (fun i => !(decide (i ∈ S))) (frames_to_dict frames)
    have hSlen : ((List.range frames.length).filter
        (fun i => decide (i ∈ S))).length = S.length :=
      (filter_mem_perm (List.range frames.length) S
        (List.nodup_range frames.length) hsel1nodup hsel1sub).length_eq
    have hSlen2 : S.length = sel1.length := List.length_map sel1 FrameDict.index
    have hSleN : S.length ≤ frames.length := by
      have := filter_split_length (fun i => decide (i ∈ S)) (List.range frames.length)
      rw [hSlen] at this
      simp only [List.length_range] at this
      omega
    have hunsel_len : unselected.length = frames.length - sel1.length := by
      have h1 : (unselected.map FrameDict.index).length = unselected.length :=
        List.length_map unselected FrameDict.index
      rw [hunsel_map] at h1
      have h2 := filter_split_length (fun i => decide (i ∈ S)) (List.range frames.length)
      rw [hSlen] at h2
      simp only [List.length_range] at h2
      omega
    have hqueue_nodup : ((sort_by_score unselected).map FrameDict.index).Nodup := by
      refine ((sort_by_score_perm unselected).map FrameDict.index).nodup_iff.mpr ?_
      rw [hunsel_map]
      exact (List.nodup_range frames.length).filter _
    have hfresh : ∀ d ∈ sort_by_score unselected, d.index ∉ sel1.map FrameDict.index := by
      intro d hd
      have hd2 : d ∈ unselected := (sort_by_score_perm unselected).subset hd
      have := List.of_mem_filter hd2
      rw [Bool.not_eq_eq_eq_not, Bool.not_true, decide_eq_false_iff_not] at this
      exact this
    have hqlen : (sort_by_score unselected).length = frames.length - sel1.length := by
      rw [(sort_by_score_perm unselected).length_eq, hunsel_len]
    rw [select_loop_fill nn (relaxed_gap mb) hgap (sort_by_score unselected) sel1
      hqueue_nodup hfresh hsel1len, hqlen]
    omega
  · rw [if_neg hc]
    omega

theorem best_n_sel2_indices_lt (frames : List FrameData) (nn : ℕ) (mb : ℤ)
    (hid : frames.map FrameData.index = List.range frames.length) :
    ∀ d ∈ best_n_sel2 frames nn mb, d.index < frames.length := by
  intro d hd
  have hd2 := best_n_sel2_mem frames nn mb d hd
  have : d.index ∈ (frames_to_dict frames).map FrameDict.index :=
    List.mem_map_of_mem FrameDict.index hd2
  rw [frames_to_dict_map_index, hid] at this
  exact List.mem_range.mp this

/-- Under the identity indexing precondition the best-n selection always
returns a list; its length is at most `min n N`, with equality whenever the
relaxed second-pass gap is 1. -/
theorem select_best_n_some_le (frames : List FrameData) (n mb : ℤ)
    (hid : frames.map FrameData.index = List.range frames.length) :
    ∃ l, select_best_n_frames frames n mb = some l ∧
      l.length ≤ min n.toNat frames.length ∧
      (relaxed_gap mb ≤ 1 → l.length = min n.toNat frames.length) := by
  by_cases hn : n ≤ 0
  · refine ⟨[], by simp [select_best_n_frames, if_pos hn], by simp, ?_⟩
    intro _
    have : n.toNat = 0 := by omega
    simp [this]
  · rw [select_best_n_frames_eq frames n mb hn]
    set nn := min n.toNat frames.length with hnn
    have hlook := lookup_selected_total frames (best_n_sel2 frames nn mb)
      (best_n_sel2_indices_lt frames nn mb hid)
    rw [hlook]
    refine ⟨sort_by_index ((best_n_sel2 frames nn mb).map
      (fun d => frames.getD d.index default)), by rw [Option.map_some'], ?_, ?_⟩
    · rw [(sort_by_index_perm _).length_eq, List.length_map]
      exact best_n_sel2_length_le frames nn mb
    · intro hgap
      rw [(sort_by_index_perm _).length_eq, List.length_map]
      exact best_n_sel2_length_eq frames nn mb hid (by omega) hgap

/-- C5: on a non-empty 0-based-indexed input with `n ≥ 0`, best-n returns at
most `min n N` frames, and exactly `min n N` whenever `min_buffer ≤ 3` (the
relaxed second-pass gap is then 1, which any two distinct indices
satisfy). -/
theorem select_best_n_count (frames : List FrameData) (n mb : ℤ)
    (hne : frames ≠ []) (hn0 : 0 ≤ n)
    (hid : frames.map FrameData.index = List.range frames.length) :
    ∃ l, select_best_n_frames frames n mb = some l ∧
      l.length ≤ min n.toNat frames.length ∧
      (mb ≤ 3 → l.length = min n.toNat frames.length) := by
  rcases select_best_n_some_le frames n mb hid with ⟨l, h1, h2, h3⟩
  exact ⟨l, h1, h2, fun hmb => h3 (relaxed_gap_le_one hmb)⟩

/-- Witness for C5 on two identity-indexed frames with `n = 2`,
`min_buffer = 3`. -/
theorem select_best_n_count_witness :
    ([⟨"a", 0, 10, none, none, none⟩, ⟨"b", 1, 20, none, none, none⟩] :
        List FrameData).map FrameData.index = List.range 2 ∧
      ∃ l, select_best_n_frames
          [⟨"a", 0, 10, none, none, none⟩, ⟨"b", 1, 20, none, none, none⟩] 2 3 =
          some l ∧
        l.length ≤ min (2 : ℤ).toNat
            ([⟨"a", 0, 10, none, none, none⟩, ⟨"b", 1, 20, none, none, none⟩] :
              List FrameData).length ∧
        ((3 : ℤ) ≤ 3 → l.length = min (2 : ℤ).toNat
            ([⟨"a", 0, 10, none, none, none⟩, ⟨"b", 1, 20, none, none, none⟩] :
              List FrameData).length) :=
  ⟨by decide,
    select_best_n_count
      [⟨"a", 0, 10, none, none, none⟩, ⟨"b", 1, 20, none, none, none⟩] 2 3
      (by decide) (by decide) (by decide)⟩

/-- The batched output count is exactly `min(batch_count, len)` for
`batch_count ≥ 1` on non-empty input. -/
theorem select_batched_length (frames : List FrameData) (batch_count : ℤ)
    (hB : 1 ≤ batch_count) (hne : frames ≠ []) :
    (select_batched_frames frames batch_count).length =
      min batch_count.toNat frames.length := by
  have hN : 0 < frames.length := List.length_pos_iff_ne_nil.mpr hne
  set nb := min batch_count.toNat frames.length with hnb
  set sz := frames.length / nb with hsz
  have hnb0 : 0 < nb := by omega
  have hnbN : nb ≤ frames.length := by omega
  have hsz1 : 1 ≤ sz := (Nat.one_le_div_iff hnb0).mpr hnbN
  have hszle : nb * sz ≤ frames.length := by
    rw [hsz, Nat.mul_comm]
    exact Nat.div_mul_le_self frames.length nb
  have heq : select_batched_frames frames batch_count =
      (List.range nb).filterMap
        (fun i => max_by_sharpness (batch_of frames nb sz i)) := by
    rw [select_batched_frames_eq frames batch_count (by omega)]
    rw [← hnb, if_pos hnb0, ← hsz]
  have htotal : ∀ i ∈ List.range nb,
      max_by_sharpness (batch_of frames nb sz i) ≠ none := by
    intro i hi
    have hne2 := batch_of_nonempty frames nb sz i (List.mem_range.mp hi) hsz1 hszle
    cases hb : batch_of frames nb sz i with
    | nil => exact absurd hb hne2
    | cons f fs => simp [max_by_sharpness]
  rw [heq, filterMap_total_eq_map _ _ htotal, List.length_map, List.length_range]

/-- Counterexample to C6 as stated: with `n = 2, min_buffer = 4` on two
adjacent identity-indexed frames, the preview reports `min(2, 2) = 2` but
the actual best-n selection returns a single frame (the gap of 4, relaxed
to 2, rejects the neighbor in both passes). -/
theorem preview_best_n_inexact_counterexample :
    preview_selection
        [⟨"a", 0, 10, none, none, none⟩, ⟨"b", 1, 20, none, none, none⟩]
        "best_n" ⟨2, 4, 5, mkRat 3 2, 15⟩ = Except.ok 2 ∧
      select_frames
          [⟨"a", 0, 10, none, none, none⟩, ⟨"b", 1, 20, none, none, none⟩]
          "best_n" ⟨2, 4, 5, mkRat 3 2, 15⟩ =
        Except.ok [⟨"b", 1, 20, none, none, none⟩] ∧
      ([⟨"b", 1, 20, none, none, none⟩] : List FrameData).length = 1 ∧
      (1 : ℤ) ≠ 2 := by
  have heval : select_best_n_frames
      [⟨"a", 0, 10, none, none, none⟩, ⟨"b", 1, 20, none, none, none⟩] 2 4 =
      some [⟨"b", 1, 20, none, none, none⟩] := by
    norm_num [select_best_n_frames, best_n_sel2, select_initial_segments,
      fill_remaining_slots, select_loop, sort_by_score, insert_by_score,
      weighted_score, BEST_N_SHARPNESS_WEIGHT, frames_to_dict, is_gap_sufficient,
      relaxed_gap, lookup_selected, sort_by_index, insert_by_index, Int.fdiv]
  refine ⟨rfl, ?_, rfl, by decide⟩
  unfold select_frames
  rw [if_neg (by decide), if_pos rfl, heval]

/-- C6 as amended: the preview counts are exact for batched with
`batch_count ≥ 1`, and for best_n with `n ≥ 0` whenever `min_buffer ≤ 3`
(so that the relaxed second-pass gap is 1); the claim's "for every
min_buffer" fails (see the counterexample). -/
theorem preview_selection_exact (frames : List FrameData) (p : SelectParams)
    (hne : frames ≠ []) (hid : frames.map FrameData.index = List.range frames.length)
    (hn0 : 0 ≤ p.n) (hmb : p.min_buffer ≤ 3) (hbc : 1 ≤ p.batch_count) :
    preview_selection frames "best_n" p = Except.ok (min p.n (frames.length : ℤ)) ∧
      (∃ l, select_frames frames "best_n" p = Except.ok l ∧
        (l.length : ℤ) = min p.n (frames.length : ℤ)) ∧
      preview_selection frames "batched" p =
        Except.ok (min p.batch_count (frames.length : ℤ)) ∧
      (∃ l, select_frames frames "batched" p = Except.ok l ∧
        (l.length : ℤ) = min p.batch_count (frames.length : ℤ)) := by
  refine ⟨?_, ?_, ?_, ?_⟩
  · unfold preview_selection
    rw [if_neg hne, if_pos rfl]
  · rcases select_best_n_some_le frames p.n p.min_buffer hid with ⟨l, hsome, _, hexact⟩
    have hlen := hexact (relaxed_gap_le_one hmb)
    refine ⟨l, ?_, ?_⟩
    · unfold select_frames
      rw [if_neg hne, if_pos rfl, hsome]
    · omega
  · unfold preview_selection
    rw [if_neg hne, if_neg (by decide), if_pos rfl]
  · refine ⟨select_batched_frames frames p.batch_count, ?_, ?_⟩
    · unfold select_frames
      rw [if_neg hne, if_neg (by decide), if_pos rfl]
    · have := select_batched_length frames p.batch_count hbc hne
      omega

/-- Witness for the amended C6 on two identity-indexed frames with
`n = 2, min_buffer = 3, batch_count = 2`. -/
theorem preview_selection_exact_witness :
    preview_selection
        [⟨"a", 0, 10, none, none, none⟩, ⟨"b", 1, 20, none, none, none⟩]
        "best_n" ⟨2, 3, 2, mkRat 3 2, 15⟩ = Except.ok (min (2 : ℤ) 2) ∧
      (∃ l, select_frames
            [⟨"a", 0, 10, none, none, none⟩, ⟨"b", 1, 20, none, none, none⟩]
            "best_n" ⟨2, 3, 2, mkRat 3 2, 15⟩ = Except.ok l ∧
          (l.length : ℤ) = min (2 : ℤ) 2) ∧
      preview_selection
          [⟨"a", 0, 10, none, none, none⟩, ⟨"b", 1, 20, none, none, none⟩]
          "batched" ⟨2, 3, 2, mkRat 3 2, 15⟩ = Except.ok (min (2 : ℤ) 2) ∧
      (∃ l, select_frames
            [⟨"a", 0, 10, none, none, none⟩, ⟨"b", 1, 20, none, none, none⟩]
            "batched" ⟨2, 3, 2, mkRat 3 2, 15⟩ = Except.ok l ∧
          (l.length : ℤ) = min (2 : ℤ) 2) :=
  preview_selection_exact
    [⟨"a", 0, 10, none, none, none⟩, ⟨"b", 1, 20, none, none, none⟩]
    ⟨2, 3, 2, mkRat 3 2, 15⟩ (by decide) (by decide) (by decide) (by decide)
    (by decide)

/-- C10: best-n recovers each selected frame by indexing the input with the
frame's own `index` field, so it is total exactly on 0-based identity-indexed
inputs: under that precondition it always returns a list; a frame whose
`index` is out of range makes it raise `IndexError` (modelled `none`); and
on an in-range but offset input it can return a frame other than the one
the algorithm scored highest. -/
theorem best_n_index_precondition :
    (∀ (frames : List FrameData) (n mb : ℤ),
        frames.map FrameData.index = List.range frames.length →
          ∃ l, select_best_n_frames frames n mb = some l) ∧
      select_best_n_frames [⟨"x", 1, 5, none, none, none⟩] 1 3 = none ∧
      select_best_n_frames
          [⟨"a", 1, 20, none, none, none⟩, ⟨"b", 5, 10, none, none, none⟩] 1 3 =
        some [⟨"b", 5, 10, none, none, none⟩] ∧
      (⟨"b", 5, 10, none, none, none⟩ : FrameData).sharpness_score <
        (⟨"a", 1, 20, none, none, none⟩ : FrameData).sharpness_score := by
  refine ⟨?_, rfl, ?_, by norm_num⟩
  · intro frames n mb hid
    rcases select_best_n_some_le frames n mb hid with ⟨l, h1, _, _⟩
    exact ⟨l, h1⟩
  · norm_num [select_best_n_frames, best_n_sel2, select_initial_segments,
      fill_remaining_slots, select_loop, sort_by_score, insert_by_score,
      weighted_score, BEST_N_SHARPNESS_WEIGHT, frames_to_dict, is_gap_sufficient,
      relaxed_gap, lookup_selected, sort_by_index, insert_by_index]

/-- Witness for C10's totality part at a concrete identity-indexed input. -/
theorem best_n_index_precondition_witness :
    ∃ l, select_best_n_frames [⟨"z", 0, 1, none, none, none⟩] 5 3 = some l :=
  best_n_index_precondition.1 [⟨"z", 0, 1, none, none, none⟩] 5 3 (by decide)
